import Mathlib

/-!
Shallow embedding of the `hank-plugin-wordle` core: the Wordle puzzle text
codec (`src/wordle/tile.rs`, `src/wordle/puzzle_board.rs`,
`src/wordle/puzzle.rs`), the daily-puzzle cache (`get_current_puzzle` in
`src/lib.rs`) and the ranking queries (`find_puzzles_by_date_and_rank`,
`find_puzzles_by_date_ordered_by_rank` in `src/lib.rs`).

Strings are modelled as `List Char` (Rust `&str` operations such as
`lines`, `split`, `contains` act on char/byte boundaries; every character
involved here is a single Unicode scalar, so `List Char` is faithful).
Rust `i32` values are modelled as `Int` with the explicit
`2147483647` bound where `parse::<i32>` can overflow.
-/

namespace HankWordle

/-- `Tile` as declared in `src/wordle/tile.rs`: exactly three variants. -/
inductive Tile
  | Black
  | Yellow
  | Green
deriving DecidableEq, Repr

/-- `impl From<Tile> for String` in `src/wordle/tile.rs`: the canonical
one-character Unicode square for a tile. -/
def tileToChars : Tile → List Char
  | Tile.Black => ['⬛']
  | Tile.Yellow => ['🟨']
  | Tile.Green => ['🟩']

/-- `impl TryFrom<String> for Tile` in `src/wordle/tile.rs`: accepts the
three named aliases and the three Unicode squares, nothing else. -/
def tileFromToken (cs : List Char) : Option Tile :=
  if cs = ("black_large_square").data then some Tile.Black
  else if cs = ("large_yellow_square").data then some Tile.Yellow
  else if cs = ("large_green_square").data then some Tile.Green
  else if cs = ['⬛'] then some Tile.Black
  else if cs = ['🟨'] then some Tile.Yellow
  else if cs = ['🟩'] then some Tile.Green
  else none

/-- Rust `line.contains("::")`: the char list has two adjacent colons. -/
def containsColonColon : List Char → Bool
  | [] => false
  | [_] => false
  | c :: d :: rest =>
    if c = ':' ∧ d = ':' then true else containsColonColon (d :: rest)

/-- Prepend a character to the first part of a split result. -/
def consHead (c : Char) : List (List Char) → List (List Char)
  | [] => [[c]]
  | p :: ps => (c :: p) :: ps

/-- Rust `line.split("::")`: split on the leftmost, non-overlapping
occurrences of two adjacent colons. -/
def splitColons : List Char → List (List Char)
  | [] => [[]]
  | [c] => consHead c [[]]
  | c :: d :: rest =>
    if c = ':' ∧ d = ':' then [] :: splitColons rest
    else consHead c (splitColons (d :: rest))

/-- The Slack branch of `PuzzleBoard::try_from` (src/wordle/puzzle_board.rs
lines 33-42): split the line on `"::"`, strip every stray `:` from each
token (`t.replace(":", "")`), convert each token to a tile, fail if any
token fails. -/
def parseAliasRow : List (List Char) → Option (List Tile)
  | [] => some []
  | tok :: rest =>
    match tileFromToken (tok.filter (fun c => c ≠ ':')) with
    | none => none
    | some t =>
      match parseAliasRow rest with
      | none => none
      | some ts => some (t :: ts)

/-- The Discord branch of `PuzzleBoard::try_from` (src/wordle/puzzle_board.rs
lines 43-54): `line.split("")` with empty fragments discarded yields the
individual characters; each is converted via `Tile::try_from`. -/
def parseRawRow : List Char → Option (List Tile)
  | [] => some []
  | c :: rest =>
    match tileFromToken [c] with
    | none => none
    | some t =>
      match parseRawRow rest with
      | none => none
      | some ts => some (t :: ts)

/-- One row of `PuzzleBoard::try_from` (src/wordle/puzzle_board.rs lines
33-54): strategy sniff on `"::"`, then the Slack or the Discord tokenizer. -/
def rowParse (line : List Char) : Option (List Tile) :=
  if containsColonColon line then parseAliasRow (splitColons line)
  else parseRawRow line

/-- Split a char list on `'\n'`, keeping every part (including empty ones). -/
def splitNl : List Char → List (List Char)
  | [] => [[]]
  | c :: rest =>
    if c = '\n' then [] :: splitNl rest else consHead c (splitNl rest)

/-- Strip one trailing `'\r'`, as Rust `str::lines` does per line. -/
def stripCr (cs : List Char) : List Char :=
  if cs.getLast? = some '\r' then cs.dropLast else cs

/-- Rust `str::lines()`: split on `'\n'`, drop a final empty part, strip a
trailing `'\r'` from each line. -/
def rustLines (cs : List Char) : List (List Char) :=
  let ps := splitNl cs
  let ps := if ps.getLast? = some [] then ps.dropLast else ps
  ps.map stripCr

/-- The row-collection loop of `PuzzleBoard::try_from` (src/wordle/
puzzle_board.rs lines 21-61): stop once 6 rows are collected, skip empty
lines, tokenize each line, fail on a bad token or a row longer than 5. -/
def collectRows : List (List Char) → List (List Tile) → Option (List (List Tile))
  | [], acc => some acc.reverse
  | line :: rest, acc =>
    if acc.length = 6 then some acc.reverse
    else if line = [] then collectRows rest acc
    else
      match rowParse line with
      | none => none
      | some row =>
        if row.length > 5 then none
        else collectRows rest (row :: acc)

/-- `impl TryFrom<String> for PuzzleBoard` (src/wordle/puzzle_board.rs):
collect up to 6 rows, then reject an empty board and a single row that is
not all green. -/
def boardTryFrom (cs : List Char) : Option (List (List Tile)) :=
  match collectRows (rustLines cs) [] with
  | none => none
  | some board =>
    match board with
    | [] => none
    | [row] => if row.all (fun t => t = Tile.Green) then some [row] else none
    | _ => some board

/-- Join char lists with a separator (Rust `Vec::join`). -/
def joinSep (sep : List Char) : List (List Char) → List Char
  | [] => []
  | [x] => x
  | x :: xs => x ++ sep ++ joinSep sep xs

/-- `impl From<PuzzleBoard> for String` (src/wordle/puzzle_board.rs lines
77-91): rows joined by newlines, tiles concatenated with no separator. -/
def boardToChars (board : List (List Tile)) : List Char :=
  joinSep ['\n'] (board.map (fun row => (row.map tileToChars).flatten))

/-- `Puzzle` as declared in `src/wordle/puzzle.rs`: `day_offset: i32`,
`attempts: i32`, `solved: bool`, `hard_mode: bool`, `board: PuzzleBoard`. -/
structure Puzzle where
  day_offset : Int
  attempts : Int
  solved : Bool
  hard_mode : Bool
  board : List (List Tile)
deriving DecidableEq, Repr

/-- Decimal digit characters of a natural number (fuel-indexed so the
definition is structurally recursive; `natToChars` supplies enough fuel). -/
def natToCharsFuel : Nat → Nat → List Char
  | _, 0 => []
  | n, fuel + 1 =>
    if n < 10 then [Nat.digitChar n]
    else natToCharsFuel (n / 10) fuel ++ [Nat.digitChar (n % 10)]

/-- Decimal digit characters of a natural number, as produced by Rust
`i32::to_string` for a non-negative value. -/
def natToChars (n : Nat) : List Char :=
  natToCharsFuel n (n + 1)

/-- Rust `i32::to_string`: a minus sign followed by the decimal digits when
negative, the decimal digits otherwise. -/
def intToChars (n : Int) : List Char :=
  if n < 0 then '-' :: natToChars (-n).toNat else natToChars n.toNat

/-- Chunks of 3 taken from the left (helper for `rchunks3`, applied to the
reversed list). -/
def chunks3 : List Char → List (List Char)
  | [] => []
  | [a] => [[a]]
  | [a, b] => [[a, b]]
  | a :: b :: c :: rest => [a, b, c] :: chunks3 rest

/-- Rust `as_bytes().rchunks(3).rev()` on a char list: chunks of 3 counted
from the right, in left-to-right order (the leftmost chunk may be short). -/
def rchunks3 (cs : List Char) : List (List Char) :=
  ((chunks3 cs.reverse).map List.reverse).reverse

/-- The day-offset grouping of `impl From<Puzzle> for String`
(src/wordle/puzzle.rs lines 26-35): chunk from the right by 3 and join the
chunks with commas. -/
def grouped (cs : List Char) : List Char :=
  joinSep [','] (rchunks3 cs)

/-- `impl From<Puzzle> for String` (src/wordle/puzzle.rs lines 22-53):
`"Wordle "`, the comma-grouped day offset, a space, the numeric attempts
value, `"/6"`, a `'*'` when hard mode, a blank line, then the board.
Note the `solved` flag is never consulted: attempts is always printed as a
number, never as `X`. -/
def puzzleToChars (p : Puzzle) : List Char :=
  ("Wordle ").data ++ grouped (intToChars p.day_offset) ++ [' ']
    ++ intToChars p.attempts ++ ("/6").data
    ++ (if p.hard_mode then ['*'] else [])
    ++ ['\n', '\n']
    ++ boardToChars p.board

/-- The captures of the header regex
`Wordle (?<day_offset>\d+,\d+) (?<attempts>(\d|X))\/6(?<hard_mode>\*)?`. -/
structure HeaderCaps where
  dayStr : List Char
  attemptsChar : Char
  hardMode : Bool
deriving DecidableEq, Repr

/-- Match the literal `"Wordle "` at the head of the list, returning the
remainder. -/
def dropWordle (cs : List Char) : Option (List Char) :=
  if cs.take 7 = ("Wordle ").data then some (cs.drop 7) else none

/-- Match `\d+,\d+ (\d|X)/6\*?` at the head of the list. Greedy `\d+` with
backtracking degenerates to maximal munch here: a shorter digit run is
followed by a digit, which can never satisfy the required `,` or space. -/
def matchAfterWordle (cs : List Char) : Option HeaderCaps :=
  let d1 := cs.takeWhile Char.isDigit
  let r1 := cs.dropWhile Char.isDigit
  if d1 = [] then none
  else
    match r1 with
    | [] => none
    | c1 :: r2 =>
      if c1 = ',' then
        let d2 := r2.takeWhile Char.isDigit
        let r3 := r2.dropWhile Char.isDigit
        if d2 = [] then none
        else
          match r3 with
          | c2 :: a :: c3 :: c4 :: rest =>
            if c2 = ' ' ∧ c3 = '/' ∧ c4 = '6' then
              if a.isDigit ∨ a = 'X' then
                some ⟨d1 ++ ',' :: d2, a, rest.head? = some '*'⟩
              else none
            else none
          | _ => none
      else none

/-- One match attempt of the header regex at the current position. -/
def matchAt (cs : List Char) : Option HeaderCaps :=
  match dropWordle cs with
  | none => none
  | some rest => matchAfterWordle rest

/-- `Regex::captures` of the header regex on a line: unanchored leftmost
search, trying every start position from the left. -/
def findHeader : List Char → Option HeaderCaps
  | [] => none
  | c :: rest =>
    match matchAt (c :: rest) with
    | some caps => some caps
    | none => findHeader rest

/-- Numeric value of a digit-character list (most significant first). -/
def digitsToNat (cs : List Char) : Nat :=
  cs.foldl (fun acc c => 10 * acc + (c.toNat - 48)) 0

/-- Rust `str::parse::<i32>` on the comma-stripped day offset: the input is
a non-empty all-digit string here, so the parse fails (and the source's
`.unwrap()` panics) exactly when the value exceeds `i32::MAX`. -/
def parseI32 (cs : List Char) : Option Int :=
  if cs = [] then none
  else if cs.all Char.isDigit then
    if digitsToNat cs ≤ 2147483647 then some (digitsToNat cs) else none
  else none

/-- Outcome of `Puzzle::try_from`: a parsed puzzle, the typed `Err(())`, or
a Rust panic (`unwrap` on a failed `parse::<i32>`). -/
inductive ParseOutcome
  | ok (p : Puzzle)
  | err
  | panicked
deriving DecidableEq, Repr

/-- `impl TryFrom<String> for Puzzle` (src/wordle/puzzle.rs lines 55-89):
regex-search the first line, de-group and parse the day offset (panicking
on overflow, line 69), read attempts as the digit value or default 6 for
`X` (`parse().unwrap_or(6)`), set `solved` iff the attempts capture is not
`X`, set `hard_mode` from the optional `*`, and convert the remaining lines
into the board. The `String -> PuzzleBoard` conversion of the board field
(line 86) has no `From` impl under `src/`; modelled from the spec:
"Board is parsed per §4.2; propagate its failures", i.e. `PuzzleBoard`'s
`TryFrom<String>` with failure propagated. -/
def puzzleTryFrom (cs : List Char) : ParseOutcome :=
  let ls := rustLines cs
  let firstLine := ls.headD []
  match findHeader firstLine with
  | none => ParseOutcome.err
  | some caps =>
    match parseI32 (caps.dayStr.filter (fun c => c ≠ ',')) with
    | none => ParseOutcome.panicked
    | some d =>
      let attempts : Int := if caps.attemptsChar.isDigit then ((caps.attemptsChar.toNat - 48 : Nat) : Int) else 6
      let solved := caps.attemptsChar ≠ 'X'
      match boardTryFrom (joinSep ['\n'] ls.tail) with
      | none => ParseOutcome.err
      | some board => ParseOutcome.ok ⟨d, attempts, solved, caps.hardMode, board⟩

/-- String-level wrapper for `Puzzle::try_from`. -/
def puzzleParse (s : String) : ParseOutcome := puzzleTryFrom s.data

/-- String-level wrapper for `PuzzleBoard::try_from`. -/
def boardParse (s : String) : Option (List (List Tile)) := boardTryFrom s.data

/-- `CurrentPuzzle` as declared in `src/lib.rs` lines 82-91. Calendar time
is modelled as an integer day number on a fixed absolute scale (days since
the Unix epoch); `print_date` and the current date live on that scale. -/
structure CurrentPuzzle where
  id : Nat
  days_since_launch : Int
  print_date : Int
  solution : String
  editor : String
deriving DecidableEq, Repr

/-- The day number of 2021-06-19 (the `with_ymd_and_hms(2021, 6, 19, ...)`
launch date in `CurrentPuzzle::from_calculated`) on the absolute day
scale. -/
def wordleLaunchDay : Int := 18797

/-- `CurrentPuzzle::from_calculated` (src/lib.rs lines 93-112): day offset
is the number of whole days from the launch date to now, `print_date` is
today, and every other field is `Default` (zero / empty). -/
def fromCalculated (today : Int) : CurrentPuzzle :=
  ⟨0, today - wordleLaunchDay, today, "", ""⟩

/-- `get_current_puzzle_inner(retries)` (src/lib.rs lines 117-137): one
fetch attempt per call, recursing while `retries > 1` on failure. The
external fetch is modelled as a stream of per-attempt outcomes; the
function returns the result together with the unconsumed stream. -/
def getInner (retries : Nat) : List (Option CurrentPuzzle) →
    Option CurrentPuzzle × List (Option CurrentPuzzle)
  | [] => (none, [])
  | attempt :: rest =>
    match attempt with
    | some p => (some p, rest)
    | none => if retries > 1 then getInner (retries - 1) rest else (none, rest)

/-- `OnceLock::set`: stores the value only when the cell is still empty;
a second `set` is a silent no-op (the source discards its `Err` with
`let _ =`). -/
def onceSet (st : Option CurrentPuzzle) (p : CurrentPuzzle) : Option CurrentPuzzle :=
  match st with
  | none => some p
  | some old => some old

/-- `get_current_puzzle(reset)` (src/lib.rs lines 114-175) with the
`OnceLock` cell made explicit: `st` is the cell content, `stream` the
pending fetch outcomes, `today` the current date (`Hank::datetime`).
Returns `(returned puzzle, new cell content, remaining stream)`, or `none`
when `fuel` recursion steps were not enough (the source recurses into
itself at line 171 whenever the cached `print_date` differs from today). -/
def getCurrentPuzzle (fuel : Nat) (today : Int) (reset : Bool)
    (st : Option CurrentPuzzle) (stream : List (Option CurrentPuzzle)) :
    Option (CurrentPuzzle × Option CurrentPuzzle × List (Option CurrentPuzzle)) :=
  match fuel with
  | 0 => none
  | f + 1 =>
    let afterReset :
        (Option CurrentPuzzle × List (Option CurrentPuzzle)) ⊕
          (CurrentPuzzle × Option CurrentPuzzle × List (Option CurrentPuzzle)) :=
      if reset then
        match getInner 2 stream with
        | (some p, stream1) => Sum.inl (onceSet st p, stream1)
        | (none, stream1) =>
          match st with
          | some old => Sum.inr (old, some old, stream1)
          | none =>
            let v := fromCalculated today
            Sum.inr (v, some v, stream1)
      else Sum.inl (st, stream)
    match afterReset with
    | Sum.inr r => some r
    | Sum.inl (st1, stream1) =>
      let init :
          CurrentPuzzle × Option CurrentPuzzle × List (Option CurrentPuzzle) :=
        match st1 with
        | some p => (p, some p, stream1)
        | none =>
          match getInner 2 stream1 with
          | (some p, stream2) => (p, some p, stream2)
          | (none, stream2) =>
            let v := fromCalculated today
            (v, some v, stream2)
      match init with
      | (current, st2, stream2) =>
        if current.print_date ≠ today then getCurrentPuzzle f today true st2 stream2
        else some (current, st2, stream2)

/-- One persisted submission row, restricted to the fields the ranking
queries consult (`attempts`, `submitted_at`, `submitted_date`) plus the
submitter identity. Timestamps and dates are integers on a fixed scale. -/
structure SubmissionRow where
  submitted_by : Nat
  submitted_at : Int
  submitted_date : Int
  attempts : Int
deriving DecidableEq, Repr

/-- Stable insertion by ascending `attempts` (`ORDER BY attempts ASC`). -/
def insertByAttempts (r : SubmissionRow) : List SubmissionRow → List SubmissionRow
  | [] => [r]
  | s :: rest =>
    if r.attempts < s.attempts then r :: s :: rest else s :: insertByAttempts r rest

/-- Sort rows by ascending `attempts`. -/
def sortByAttempts (rows : List SubmissionRow) : List SubmissionRow :=
  rows.foldr insertByAttempts []

/-- Index of the first row holding a given `attempts` value. -/
def firstIdxWith (a : Int) : List SubmissionRow → Nat
  | [] => 0
  | s :: rest => if s.attempts = a then 0 else 1 + firstIdxWith a rest

/-- SQLite `RANK() OVER (ORDER BY attempts ASC)` for a row of the window:
one more than the row number of its first peer in the sorted order. -/
def rankIn (rows : List SubmissionRow) (r : SubmissionRow) : Nat :=
  firstIdxWith r.attempts (sortByAttempts rows) + 1

/-- Stable insertion by ascending `submitted_at` (`ORDER BY submitted_at
ASC`). -/
def insertByTime (r : SubmissionRow) : List SubmissionRow → List SubmissionRow
  | [] => [r]
  | s :: rest =>
    if r.submitted_at < s.submitted_at then r :: s :: rest else s :: insertByTime r rest

/-- Sort rows by ascending `submitted_at`. -/
def sortByTime (rows : List SubmissionRow) : List SubmissionRow :=
  rows.foldr insertByTime []

/-- `find_puzzles_by_date_and_rank` (src/lib.rs lines 394-406): rank the
rows of the given date with `RANK() OVER (ORDER BY attempts ASC)`, keep
the rows of the requested rank, order them by submission time. -/
def findPuzzlesByDateAndRank (rows : List SubmissionRow) (date : Int) (rank : Nat) :
    List SubmissionRow :=
  let dated := rows.filter (fun r => r.submitted_date = date)
  sortByTime (dated.filter (fun r => rankIn dated r = rank))

/-- `find_todays_winners` / `find_yesterdays_winners` (src/lib.rs lines
385-392): the rank-1 rows of a date. -/
def findWinners (rows : List SubmissionRow) (date : Int) : List SubmissionRow :=
  findPuzzlesByDateAndRank rows date 1

/-- The alias token of a tile, as accepted by `Tile::try_from`. -/
def aliasTokenChars : Tile → List Char
  | Tile.Black => ("black_large_square").data
  | Tile.Yellow => ("large_yellow_square").data
  | Tile.Green => ("large_green_square").data

/-- The alias-delimited form of a row: each tile written as a colon-wrapped
alias token, tokens concatenated (adjacent tokens touch as `::`). -/
def aliasRowForm (ts : List Tile) : List Char :=
  (ts.map (fun t => ':' :: (aliasTokenChars t ++ [':']))).flatten

/-- The raw Unicode-square form of a row: the canonical encoding. -/
def rawRowForm (ts : List Tile) : List Char :=
  (ts.map tileToChars).flatten

/-- The shapes of first line the header regex
`Wordle (?<day_offset>\d+,\d+) (?<attempts>(\d|X))\/6(?<hard_mode>\*)?`
can match somewhere: anything, then `"Wordle "`, a non-empty digit run, a
comma, a non-empty digit run, a space, a digit or `X`, then `/6`, then
anything (the optional `*` constrains nothing for acceptance). -/
def HeaderShape (line : List Char) : Prop :=
  ∃ pre d1 d2 a rest,
    line = pre ++ ("Wordle ").data ++ d1 ++ ',' :: d2 ++ ' ' :: a :: '/' :: '6' :: rest
      ∧ d1 ≠ [] ∧ d2 ≠ [] ∧ (∀ c ∈ d1, c.isDigit) ∧ (∀ c ∈ d2, c.isDigit)
      ∧ (a.isDigit ∨ a = 'X')

/-- A concrete six-row failed board used in counterexamples. -/
def sixRowBoard : List (List Tile) :=
  [[Tile.Green, Tile.Green, Tile.Green, Tile.Green, Tile.Black],
   [Tile.Black, Tile.Yellow, Tile.Black, Tile.Black, Tile.Green],
   [Tile.Green, Tile.Green, Tile.Black, Tile.Green, Tile.Green],
   [Tile.Green, Tile.Green, Tile.Green, Tile.Green, Tile.Black],
   [Tile.Green, Tile.Green, Tile.Green, Tile.Green, Tile.Black],
   [Tile.Green, Tile.Green, Tile.Green, Tile.Green, Tile.Black]]

/-- An unsolved puzzle with a legitimate six-row board: syntactically valid
per the round-trip claim (`solved = false`, six rows). -/
def unsolvedPuzzle : Puzzle := ⟨1234, 6, false, false, sixRowBoard⟩

/-- A cached puzzle for today (day 100) used in cache counterexamples. -/
def cachedOld : CurrentPuzzle := ⟨7, 50, 100, "apple", "ed"⟩

/-- A freshly fetched puzzle for today (day 100), distinct from
`cachedOld`. -/
def fetchedNew : CurrentPuzzle := ⟨8, 51, 100, "berry", "ed"⟩

/-- A cached puzzle whose `print_date` (day 99) is stale on day 100. -/
def staleOld : CurrentPuzzle := ⟨7, 50, 99, "apple", "ed"⟩

/-- Concrete submissions for one date (5): attempts 2, 2, 4, 6, with the
two attempts-2 rows submitted at times 10 and 8 (listed out of time
order). -/
def rowA : SubmissionRow := ⟨1, 10, 5, 2⟩

/-- Second attempts-2 submission, submitted earlier (time 8). -/
def rowB : SubmissionRow := ⟨2, 8, 5, 2⟩

/-- The attempts-4 submission. -/
def rowC : SubmissionRow := ⟨3, 3, 5, 4⟩

/-- The attempts-6 submission. -/
def rowD : SubmissionRow := ⟨4, 1, 5, 6⟩

/-- The four-row example submission set. -/
def exampleRows : List SubmissionRow := [rowA, rowB, rowC, rowD]

/-- The alias row form without its leading colon: token names separated by
`::`, with one trailing colon (so `':' :: aliasTail ts = aliasRowForm ts`
for a non-empty row). -/
def aliasTail : List Tile → List Char
  | [] => []
  | [t] => aliasTokenChars t ++ [':']
  | t :: ts => aliasTokenChars t ++ ':' :: ':' :: aliasTail ts

/-- Claim C4: the claim says no core parsing operation can panic; the code
panics. `Puzzle::try_from` calls `.parse::<i32>().unwrap()` on the
de-grouped day offset (src/wordle/puzzle.rs line 69), and a day offset
whose digits exceed `i32::MAX` makes that `unwrap` panic: the input
`"Wordle 99999999999,999 3/6"` reaches the panic, not a typed error. -/
theorem c4_day_offset_unwrap_panics :
    puzzleParse "Wordle 99999999999,999 3/6" = ParseOutcome.panicked := by
  decide

/-- Claim C1, counterexample: the round-trip fails for an unsolved puzzle.
Encoding always prints the numeric `attempts` field (src/wordle/puzzle.rs
line 40), never the `X` failure marker, so an unsolved puzzle with a
six-row board re-parses as solved. -/
theorem c1_counterexample_unsolved_roundtrip :
    puzzleTryFrom (puzzleToChars unsolvedPuzzle)
        = ParseOutcome.ok ⟨1234, 6, true, false, sixRowBoard⟩
      ∧ puzzleTryFrom (puzzleToChars unsolvedPuzzle)
        ≠ ParseOutcome.ok unsolvedPuzzle := by
  constructor
  · decide
  · decide

/-- Claim C2, counterexample: the attempts capture is `(\d|X)`, so a digit
outside 1-6 is accepted, contradicting the claim that such headers are
rejected: `"Wordle 1,234 9/6"` parses successfully with `attempts = 9`. -/
theorem c2_counterexample_attempts_nine_accepted :
    puzzleParse "Wordle 1,234 9/6\n\n🟩🟩🟩🟩🟩"
      = ParseOutcome.ok ⟨1234, 9, true, false,
          [[Tile.Green, Tile.Green, Tile.Green, Tile.Green, Tile.Green]]⟩ := by
  decide

/-- Claim C6, counterexample: a single row of three green tiles is
accepted (the source only rejects rows longer than 5 and single rows with
a non-green tile), contradicting the claim that a single row with fewer
than 5 tiles is a board-validation failure. -/
theorem c6_counterexample_three_green_accepted :
    boardParse "🟩🟩🟩" = some [[Tile.Green, Tile.Green, Tile.Green]] := by
  decide

/-- Claim C8, counterexample: a one-tile row. Its alias form
`":large_green_square:"` has no `"::"` substring, so the raw-glyph
tokenizer is chosen and every character fails `Tile::try_from`, while the
Unicode-square form parses; the two strategies disagree. -/
theorem c8_counterexample_single_alias_token :
    rowParse (aliasRowForm [Tile.Green]) = none
      ∧ rowParse (rawRowForm [Tile.Green]) = some [Tile.Green] := by
  constructor
  · decide
  · decide

/-- Claim C10, counterexample: a first line containing the embedded header
pattern does not suffice: with no board lines after it, parsing fails, so
the claim's "for every input whose first line contains the pattern,
parsing succeeds" is false. -/
theorem c10_counterexample_pattern_without_board :
    puzzleParse "junk Wordle 1,234 4/6" = ParseOutcome.err := by
  decide

/-! ### Digit-character facts -/

theorem isDigit_toNat {c : Char} (h : c.isDigit = true) :
    48 ≤ c.toNat ∧ c.toNat ≤ 57 := by
  simp only [Char.isDigit, decide_eq_true_eq, Bool.and_eq_true] at h
  obtain ⟨h1, h2⟩ := h
  constructor
  · exact h1
  · exact h2

theorem digitChar_isDigit {d : Nat} (h : d < 10) :
    (Nat.digitChar d).isDigit = true := by
  interval_cases d <;> decide

theorem digitChar_toNat {d : Nat} (h : d < 10) :
    (Nat.digitChar d).toNat = 48 + d := by
  interval_cases d <;> decide

theorem isDigit_ne_of_toNat {c e : Char} (h : c.isDigit = true)
    (he : e.toNat < 48 ∨ 57 < e.toNat) : c ≠ e := by
  intro hc
  obtain ⟨h1, h2⟩ := isDigit_toNat h
  subst hc
  omega

theorem isDigit_ne_comma {c : Char} (h : c.isDigit = true) : c ≠ ',' :=
  isDigit_ne_of_toNat h (by decide)

theorem isDigit_ne_nl {c : Char} (h : c.isDigit = true) : c ≠ '\n' :=
  isDigit_ne_of_toNat h (by decide)

theorem isDigit_ne_cr {c : Char} (h : c.isDigit = true) : c ≠ '\r' :=
  isDigit_ne_of_toNat h (by decide)

theorem isDigit_ne_X {c : Char} (h : c.isDigit = true) : c ≠ 'X' :=
  isDigit_ne_of_toNat h (by decide)

/-! ### `digitsToNat` and `natToChars` -/

theorem digitsToNat_append_singleton (l : List Char) (c : Char) :
    digitsToNat (l ++ [c]) = 10 * digitsToNat l + (c.toNat - 48) := by
  simp [digitsToNat, List.foldl_append]

theorem natToCharsFuel_isDigit :
    ∀ (fuel n : Nat), n < fuel → ∀ c ∈ natToCharsFuel n fuel, c.isDigit = true := by
  intro fuel
  induction fuel with
  | zero => intro n hn; omega
  | succ f ih =>
    intro n hn c hc
    by_cases h10 : n < 10
    · simp only [natToCharsFuel, if_pos h10, List.mem_singleton] at hc
      subst hc
      exact digitChar_isDigit h10
    · simp only [natToCharsFuel, if_neg h10, List.mem_append, List.mem_singleton] at hc
      rcases hc with hc | hc
      · have hd : n / 10 < f := by
          have := Nat.div_lt_self (by omega : 0 < n) (by omega : 1 < 10)
          omega
        exact ih (n / 10) hd c hc
      · subst hc
        exact digitChar_isDigit (Nat.mod_lt n (by omega))

theorem natToChars_isDigit (n : Nat) : ∀ c ∈ natToChars n, c.isDigit = true :=
  natToCharsFuel_isDigit (n + 1) n (by omega)

theorem digitsToNat_natToCharsFuel :
    ∀ (fuel n : Nat), n < fuel → digitsToNat (natToCharsFuel n fuel) = n := by
  intro fuel
  induction fuel with
  | zero => intro n hn; omega
  | succ f ih =>
    intro n hn
    by_cases h10 : n < 10
    · simp only [natToCharsFuel, if_pos h10]
      have : digitsToNat [Nat.digitChar n] = (Nat.digitChar n).toNat - 48 := by
        simp [digitsToNat]
      rw [this, digitChar_toNat h10]
      omega
    · simp only [natToCharsFuel, if_neg h10]
      rw [digitsToNat_append_singleton]
      have hd : n / 10 < f := by
        have := Nat.div_lt_self (by omega : 0 < n) (by omega : 1 < 10)
        omega
      rw [ih (n / 10) hd, digitChar_toNat (Nat.mod_lt n (by omega))]
      omega

theorem digitsToNat_natToChars (n : Nat) : digitsToNat (natToChars n) = n :=
  digitsToNat_natToCharsFuel (n + 1) n (by omega)

theorem natToCharsFuel_ne_nil :
    ∀ (fuel n : Nat), n < fuel → natToCharsFuel n fuel ≠ [] := by
  intro fuel n hn
  cases fuel with
  | zero => omega
  | succ f =>
    by_cases h10 : n < 10
    · simp [natToCharsFuel, if_pos h10]
    · simp [natToCharsFuel, if_neg h10]

theorem natToChars_ne_nil (n : Nat) : natToChars n ≠ [] :=
  natToCharsFuel_ne_nil (n + 1) n (by omega)

theorem natToCharsFuel_length_le :
    ∀ (fuel n k : Nat), n < fuel → n < 10 ^ k → 1 ≤ k →
      (natToCharsFuel n fuel).length ≤ k := by
  intro fuel
  induction fuel with
  | zero => intro n k hn; omega
  | succ f ih =>
    intro n k hn hk h1
    by_cases h10 : n < 10
    · simp only [natToCharsFuel, if_pos h10, List.length_singleton]
      omega
    · simp only [natToCharsFuel, if_neg h10, List.length_append, List.length_singleton]
      have hd : n / 10 < f := by
        have := Nat.div_lt_self (by omega : 0 < n) (by omega : 1 < 10)
        omega
      have hk2 : 2 ≤ k := by
        by_contra hcon
        have : k = 1 := by omega
        subst this
        simp at hk
        omega
      have hdiv : n / 10 < 10 ^ (k - 1) := by
        rw [Nat.div_lt_iff_lt_mul (by omega : 0 < 10)]
        have : 10 ^ (k - 1) * 10 = 10 ^ k := by
          rw [mul_comm, ← pow_succ']
          · congr 1
            omega
        omega
      have := ih (n / 10) (k - 1) hd hdiv (by omega)
      omega

theorem natToCharsFuel_length_ge :
    ∀ (fuel n k : Nat), n < fuel → 10 ^ k ≤ n →
      k + 1 ≤ (natToCharsFuel n fuel).length := by
  intro fuel
  induction fuel with
  | zero => intro n k hn; omega
  | succ f ih =>
    intro n k hn hk
    by_cases h10 : n < 10
    · have hk0 : k = 0 := by
        by_contra hcon
        have : 10 ≤ 10 ^ k := by
          calc 10 = 10 ^ 1 := by norm_num
          _ ≤ 10 ^ k := Nat.pow_le_pow_right (by omega) (by omega)
        omega
      subst hk0
      simp [natToCharsFuel, if_pos h10]
    · simp only [natToCharsFuel, if_neg h10, List.length_append, List.length_singleton]
      cases k with
      | zero =>
        have := natToCharsFuel_ne_nil f (n / 10) (by
          have := Nat.div_lt_self (by omega : 0 < n) (by omega : 1 < 10)
          omega)
        have := List.length_pos.mpr this
        omega
      | succ k2 =>
        have hd : n / 10 < f := by
          have := Nat.div_lt_self (by omega : 0 < n) (by omega : 1 < 10)
          omega
        have hdiv : 10 ^ k2 ≤ n / 10 := by
          rw [Nat.le_div_iff_mul_le (by omega : 0 < 10)]
          calc 10 ^ k2 * 10 = 10 ^ (k2 + 1) := by rw [← pow_succ]
          _ ≤ n := hk
        have := ih (n / 10) k2 hd hdiv
        omega

theorem natToChars_length_le {n k : Nat} (hk : n < 10 ^ k) (h1 : 1 ≤ k) :
    (natToChars n).length ≤ k :=
  natToCharsFuel_length_le (n + 1) n k (by omega) hk h1

theorem natToChars_length_ge {n k : Nat} (hk : 10 ^ k ≤ n) :
    k + 1 ≤ (natToChars n).length :=
  natToCharsFuel_length_ge (n + 1) n k (by omega) hk

/-! ### `takeWhile` / `dropWhile` on a digit run -/

theorem takeWhile_all_append {p : Char → Bool} :
    ∀ (xs : List Char) (y : Char) (ys : List Char),
      (∀ x ∈ xs, p x = true) → p y = false →
      (xs ++ y :: ys).takeWhile p = xs := by
  intro xs y ys hxs hy
  induction xs with
  | nil => simp [List.takeWhile, hy]
  | cons x xs2 ih =>
    have hx : p x = true := hxs x (by simp)
    simp only [List.cons_append, List.takeWhile_cons, hx, if_true]
    rw [ih (fun z hz => hxs z (by simp [hz]))]

theorem dropWhile_all_append {p : Char → Bool} :
    ∀ (xs : List Char) (y : Char) (ys : List Char),
      (∀ x ∈ xs, p x = true) → p y = false →
      (xs ++ y :: ys).dropWhile p = y :: ys := by
  intro xs y ys hxs hy
  induction xs with
  | nil => simp [List.dropWhile, hy]
  | cons x xs2 ih =>
    have hx : p x = true := hxs x (by simp)
    simp only [List.cons_append, List.dropWhile_cons, hx, if_true]
    rw [ih (fun z hz => hxs z (by simp [hz]))]

/-! ### `splitNl`, `joinSep`, `rustLines` -/

theorem splitNl_ne_nil : ∀ cs : List Char, splitNl cs ≠ [] := by
  intro cs
  cases cs with
  | nil => simp [splitNl]
  | cons c rest =>
    simp only [splitNl]
    by_cases h : c = '\n'
    · simp [h]
    · simp only [if_neg h]
      cases splitNl rest <;> simp [consHead]

theorem splitNl_no_nl : ∀ cs : List Char, '\n' ∉ cs → splitNl cs = [cs] := by
  intro cs
  induction cs with
  | nil => intro _; rfl
  | cons c rest ih =>
    intro h
    have hc : c ≠ '\n' := fun he => h (by simp [he])
    have hr : '\n' ∉ rest := fun he => h (by simp [he])
    simp only [splitNl, if_neg hc, ih hr, consHead]

theorem splitNl_append_nl :
    ∀ (a b : List Char), '\n' ∉ a → splitNl (a ++ '\n' :: b) = a :: splitNl b := by
  intro a b ha
  induction a with
  | nil => simp [splitNl]
  | cons c a2 ih =>
    have hc : c ≠ '\n' := fun he => ha (by simp [he])
    have ha2 : '\n' ∉ a2 := fun he => ha (by simp [he])
    simp only [List.cons_append, splitNl, if_neg hc, List.append_eq, ih ha2, consHead]

theorem splitNl_joinSep :
    ∀ rows : List (List Char), rows ≠ [] → (∀ r ∈ rows, '\n' ∉ r) →
      splitNl (joinSep ['\n'] rows) = rows := by
  intro rows
  induction rows with
  | nil => intro h; exact absurd rfl h
  | cons r rest ih =>
    intro _ hall
    cases rest with
    | nil => exact splitNl_no_nl r (hall r (by simp))
    | cons r2 rest2 =>
      have : joinSep ['\n'] (r :: r2 :: rest2) = r ++ '\n' :: joinSep ['\n'] (r2 :: rest2) := by
        simp [joinSep]
      rw [this, splitNl_append_nl r _ (hall r (by simp))]
      rw [ih (by simp) (fun x hx => hall x (by simp [hx]))]

theorem rustLines_of_good :
    ∀ rows : List (List Char), rows ≠ [] → (∀ r ∈ rows, '\n' ∉ r ∧ r.getLast? ≠ some '\r') →
      rows.getLast? ≠ some [] →
      rustLines (joinSep ['\n'] rows) = rows := by
  intro rows hne hall hlast
  have hsplit : splitNl (joinSep ['\n'] rows) = rows :=
    splitNl_joinSep rows hne (fun r hr => (hall r hr).1)
  simp only [rustLines, hsplit, if_neg hlast]
  have : ∀ r ∈ rows, stripCr r = r := by
    intro r hr
    simp [stripCr, (hall r hr).2]
  calc rows.map stripCr = rows.map id := List.map_congr_left (by simpa using this)
  _ = rows := List.map_id rows

/-! ### `chunks3`, `rchunks3`, `grouped` -/

theorem chunks3_flatten : ∀ cs : List Char, (chunks3 cs).flatten = cs := by
  intro cs
  induction cs using chunks3.induct with
  | case1 => rfl
  | case2 a => rfl
  | case3 a b => rfl
  | case4 a b c rest ih => simp [chunks3, ih]

theorem rchunks3_flatten (cs : List Char) : (rchunks3 cs).flatten = cs := by
  simp only [rchunks3]
  rw [List.flatten_reverse]
  simp only [List.map_map]
  have h1 : List.reverse ∘ List.reverse = (id : List Char → List Char) := by
    funext l
    simp
  rw [h1, List.map_id, chunks3_flatten, List.reverse_reverse]

theorem filter_joinSep_comma :
    ∀ chunks : List (List Char),
      (joinSep [','] chunks).filter (fun c => c ≠ ',') =
        (chunks.map (List.filter (fun c => c ≠ ','))).flatten := by
  intro chunks
  induction chunks with
  | nil => rfl
  | cons x xs ih =>
    cases xs with
    | nil => simp [joinSep]
    | cons y ys =>
      have : joinSep [','] (x :: y :: ys) = x ++ [','] ++ joinSep [','] (y :: ys) := by
        simp [joinSep]
      rw [this]
      simp only [List.filter_append, ih]
      have hc : List.filter (fun c => decide (c ≠ ',')) [','] = [] := by decide
      simp [hc]

theorem filter_grouped_of_no_comma (cs : List Char) (h : ∀ c ∈ cs, c ≠ ',') :
    (grouped cs).filter (fun c => c ≠ ',') = cs := by
  have hmap : ∀ chunk ∈ rchunks3 cs, chunk.filter (fun c => c ≠ ',') = id chunk := by
    intro chunk hchunk
    apply List.filter_eq_self.mpr
    intro c hc
    have : c ∈ (rchunks3 cs).flatten := List.mem_flatten.mpr ⟨chunk, hchunk, hc⟩
    rw [rchunks3_flatten] at this
    simpa using h c this
  rw [grouped, filter_joinSep_comma, List.map_congr_left hmap, List.map_id, rchunks3_flatten]

theorem grouped_short (cs : List Char) (h1 : cs ≠ []) (h3 : cs.length ≤ 3) :
    grouped cs = cs := by
  have : rchunks3 cs = [cs] := by
    match cs, h3 with
    | [], _ => exact absurd rfl h1
    | [a], _ => rfl
    | [a, b], _ => rfl
    | [a, b, c], _ => rfl
  simp [grouped, this, joinSep]

theorem grouped_two_chunks (cs : List Char) (h4 : 4 ≤ cs.length) (h6 : cs.length ≤ 6) :
    grouped cs = cs.take (cs.length - 3) ++ ',' :: cs.drop (cs.length - 3) := by
  have : rchunks3 cs = [cs.take (cs.length - 3), cs.drop (cs.length - 3)] := by
    match cs, h4, h6 with
    | [a, b, c, d], _, _ => rfl
    | [a, b, c, d, e], _, _ => rfl
    | [a, b, c, d, e, f], _, _ => rfl
  simp [grouped, this, joinSep]

theorem parseI32_natToChars (n : Nat) (h : n ≤ 2147483647) :
    parseI32 (natToChars n) = some (n : Int) := by
  have hne : natToChars n ≠ [] := natToChars_ne_nil n
  have hall : (natToChars n).all Char.isDigit = true :=
    List.all_eq_true.mpr (natToChars_isDigit n)
  simp only [parseI32, if_neg hne, hall, if_true, digitsToNat_natToChars, if_pos h]

/-- Claim C7: day-offset comma grouping is the exact inverse of de-grouping.
For every non-negative `n` representable in `i32`, stripping the commas
from the grouped rendering of `n` (`replace(",", "")`) and parsing it back
(`parse::<i32>()`) yields `n`; the rendering of `n < 1000` contains no
comma; and `12345` renders as `"12,345"`. -/
theorem c7_grouping_inverse (n : Nat) (h : n ≤ 2147483647) :
    parseI32 ((grouped (natToChars n)).filter (fun c => c ≠ ',')) = some (n : Int)
      ∧ (n < 1000 → ',' ∉ grouped (natToChars n))
      ∧ grouped (natToChars 12345) = ("12,345").data := by
  refine ⟨?_, ?_, by decide⟩
  · rw [filter_grouped_of_no_comma (natToChars n)
      (fun c hc => isDigit_ne_comma (natToChars_isDigit n c hc))]
    exact parseI32_natToChars n h
  · intro h1000
    have hlen : (natToChars n).length ≤ 3 :=
      natToChars_length_le (by norm_num; omega) (by omega)
    rw [grouped_short (natToChars n) (natToChars_ne_nil n) hlen]
    intro hmem
    exact isDigit_ne_comma (natToChars_isDigit n ',' hmem) rfl

/-- Witness for C7 at `n = 12345`. -/
theorem c7_grouping_inverse_witness :
    parseI32 ((grouped (natToChars 12345)).filter (fun c => c ≠ ',')) = some (12345 : Int) :=
  (c7_grouping_inverse 12345 (by norm_num)).1

/-! ### Row tokenization -/

theorem tileToChars_single (t : Tile) : ∃ c, tileToChars t = [c] := by
  cases t <;> exact ⟨_, rfl⟩

theorem tileFromToken_tile_char (t : Tile) : tileFromToken (tileToChars t) = some t := by
  cases t <;> decide

theorem tile_char_no_colon (t : Tile) : ∀ c ∈ tileToChars t, c ≠ ':' := by
  cases t <;> decide

theorem tile_char_no_nl (t : Tile) : ∀ c ∈ tileToChars t, c ≠ '\n' := by
  cases t <;> decide

theorem tile_char_no_cr (t : Tile) : ∀ c ∈ tileToChars t, c ≠ '\r' := by
  cases t <;> decide

theorem rawRowForm_mem {ts : List Tile} {c : Char} (hc : c ∈ rawRowForm ts) :
    ∃ t ∈ ts, c ∈ tileToChars t := by
  simp only [rawRowForm, List.mem_flatten, List.mem_map] at hc
  obtain ⟨l, ⟨t, ht, rfl⟩, hcl⟩ := hc
  exact ⟨t, ht, hcl⟩

theorem parseRawRow_rawRowForm : ∀ ts : List Tile, parseRawRow (rawRowForm ts) = some ts := by
  intro ts
  induction ts with
  | nil => rfl
  | cons t rest ih =>
    have : rawRowForm (t :: rest) = tileToChars t ++ rawRowForm rest := by
      simp [rawRowForm]
    rw [this]
    obtain ⟨c, hc⟩ := tileToChars_single t
    have hparse : tileFromToken [c] = some t := by
      rw [← hc]
      exact tileFromToken_tile_char t
    rw [hc]
    simp only [List.cons_append, List.nil_append, List.append_eq, parseRawRow, hparse, ih]

theorem containsColonColon_step (c : Char) (xs : List Char) (hne : xs ≠ []) :
    containsColonColon (c :: xs) =
      if c = ':' ∧ xs.head? = some ':' then true else containsColonColon xs := by
  cases xs with
  | nil => exact absurd rfl hne
  | cons d rest => simp [containsColonColon]

theorem containsColonColon_false_of_no_colon :
    ∀ cs : List Char, (∀ c ∈ cs, c ≠ ':') → containsColonColon cs = false := by
  intro cs
  induction cs with
  | nil => intro _; rfl
  | cons c rest ih =>
    intro h
    cases rest with
    | nil => rfl
    | cons d rest2 =>
      rw [containsColonColon_step c (d :: rest2) (by simp)]
      rw [if_neg (by
        intro hcon
        exact h c (by simp) hcon.1)]
      exact ih (fun x hx => h x (by simp [hx]))

theorem rowParse_rawRowForm (ts : List Tile) : rowParse (rawRowForm ts) = some ts := by
  have hnc : containsColonColon (rawRowForm ts) = false := by
    apply containsColonColon_false_of_no_colon
    intro c hc
    obtain ⟨t, ht, hct⟩ := rawRowForm_mem hc
    exact tile_char_no_colon t c hct
  simp only [rowParse, hnc, Bool.false_eq_true, if_false, parseRawRow_rawRowForm]

/-! ### Claim C6 -/

/-- Claim C6 (amended): a board text that is a single non-blank row parsing
to tiles `ts` is accepted, as the one-row board `[ts]`, exactly when the
row has at most 5 tiles and every tile is green; a single row containing
any non-green tile is rejected. (The original claim also required exactly
5 tiles; the code accepts 1-5 green tiles, see the counterexample.) -/
theorem c6_single_row_iff (line : List Char) (ts : List Tile)
    (hne : line ≠ []) (hnl : '\n' ∉ line) (hcr : line.getLast? ≠ some '\r')
    (hrow : rowParse line = some ts) :
    (boardTryFrom line = some [ts] ↔ (ts.length ≤ 5 ∧ ∀ t ∈ ts, t = Tile.Green))
      ∧ ((∃ t ∈ ts, t ≠ Tile.Green) → boardTryFrom line = none) := by
  have hlines : rustLines line = [line] := by
    simp only [rustLines, splitNl_no_nl line hnl]
    have hlast : ([line] : List (List Char)).getLast? ≠ some [] := by
      simp only [List.getLast?_singleton]
      intro hcon
      exact hne (by injection hcon)
    rw [if_neg hlast]
    simp [stripCr, hcr]
  have hcollect : collectRows [line] [] =
      (if ts.length > 5 then none else some [ts]) := by
    simp only [collectRows, List.length_nil, if_neg hne, hrow, List.reverse_cons,
      List.reverse_nil, List.nil_append]
    rw [if_neg (by omega : ¬ ((0 : Nat) = 6))]
  constructor
  · constructor
    · intro hboard
      by_cases h5 : ts.length > 5
      · rw [boardTryFrom, hlines, hcollect, if_pos h5] at hboard
        exact absurd hboard (by simp)
      · refine ⟨by omega, ?_⟩
        rw [boardTryFrom, hlines, hcollect, if_neg h5] at hboard
        by_cases hg : ts.all (fun t => t = Tile.Green)
        · intro t ht
          have := List.all_eq_true.mp hg t ht
          simpa using this
        · simp only [hg, Bool.false_eq_true, if_false] at hboard
          exact absurd hboard (by simp)
    · rintro ⟨h5, hg⟩
      have hgb : ts.all (fun t => t = Tile.Green) = true :=
        List.all_eq_true.mpr (fun t ht => by simpa using hg t ht)
      rw [boardTryFrom, hlines, hcollect, if_neg (by omega)]
      simp [hgb]
  · rintro ⟨t, ht, htg⟩
    by_cases h5 : ts.length > 5
    · rw [boardTryFrom, hlines, hcollect, if_pos h5]
    · have hgb : ts.all (fun t => t = Tile.Green) = false := by
        apply Bool.eq_false_iff.mpr
        intro hcon
        exact htg (by simpa using List.all_eq_true.mp hcon t ht)
      rw [boardTryFrom, hlines, hcollect, if_neg h5]
      simp [hgb]

/-- Witness for C6: a full row of five green tiles is accepted as a one-row
board. -/
theorem c6_single_row_iff_witness :
    boardTryFrom (rawRowForm [Tile.Green, Tile.Green, Tile.Green, Tile.Green, Tile.Green])
      = some [[Tile.Green, Tile.Green, Tile.Green, Tile.Green, Tile.Green]] :=
  (c6_single_row_iff (rawRowForm [Tile.Green, Tile.Green, Tile.Green, Tile.Green, Tile.Green])
    [Tile.Green, Tile.Green, Tile.Green, Tile.Green, Tile.Green]
    (by decide) (by decide) (by decide) (by decide)).1.mpr (by decide)

/-! ### Alias tokenization (claim C8) -/

theorem aliasTokenChars_ne_nil (t : Tile) : aliasTokenChars t ≠ [] := by
  cases t <;> decide

theorem aliasTokenChars_no_colon (t : Tile) : ∀ c ∈ aliasTokenChars t, c ≠ ':' := by
  cases t <;> decide

theorem aliasTokenChars_head (t : Tile) : (aliasTokenChars t).head? ≠ some ':' := by
  cases t <;> decide

theorem tileFromToken_aliasTokenChars (t : Tile) :
    tileFromToken (aliasTokenChars t) = some t := by
  cases t <;> decide

theorem splitColons_step (c : Char) (xs : List Char) (hne : xs ≠ [])
    (h : ¬(c = ':' ∧ xs.head? = some ':')) :
    splitColons (c :: xs) = consHead c (splitColons xs) := by
  cases xs with
  | nil => exact absurd rfl hne
  | cons d rest =>
    have hcd : ¬(c = ':' ∧ d = ':') := by
      intro hcon
      exact h ⟨hcon.1, by simp [hcon.2]⟩
    simp only [splitColons, if_neg hcd]

theorem splitColons_sep (rest : List Char) :
    splitColons (':' :: ':' :: rest) = [] :: splitColons rest := by
  simp [splitColons]

theorem splitColons_ne_nil : ∀ cs : List Char, splitColons cs ≠ [] := by
  intro cs
  induction cs using splitColons.induct with
  | case1 => simp [splitColons]
  | case2 c =>
    simp only [splitColons]
    cases h : splitColons [] <;> simp [consHead]
  | case3 c d rest h ih =>
    rw [splitColons, if_pos h]
    simp
  | case4 c d rest h ih =>
    rw [splitColons, if_neg h]
    cases splitColons (d :: rest) <;> simp [consHead]

theorem splitColons_name_sep (name : List Char) (hnc : ∀ c ∈ name, c ≠ ':') :
    ∀ rest, splitColons (name ++ ':' :: ':' :: rest) = name :: splitColons rest := by
  induction name with
  | nil => intro rest; simpa using splitColons_sep rest
  | cons c n2 ih =>
    intro rest
    have hc : c ≠ ':' := hnc c (by simp)
    rw [List.cons_append, splitColons_step c (n2 ++ ':' :: ':' :: rest) (by simp)
      (fun hcon => hc hcon.1)]
    rw [ih (fun x hx => hnc x (by simp [hx])) rest, consHead]

theorem splitColons_name_trail (name : List Char) (hnc : ∀ c ∈ name, c ≠ ':') :
    splitColons (name ++ [':']) = [name ++ [':']] := by
  induction name with
  | nil => rfl
  | cons c n2 ih =>
    have hc : c ≠ ':' := hnc c (by simp)
    rw [List.cons_append, splitColons_step c (n2 ++ [':']) (by simp)
      (fun hcon => hc hcon.1)]
    rw [ih (fun x hx => hnc x (by simp [hx])), consHead]

theorem aliasRowForm_eq_tail :
    ∀ (t : Tile) (ts : List Tile), aliasRowForm (t :: ts) = ':' :: aliasTail (t :: ts) := by
  intro t ts
  induction ts generalizing t with
  | nil => simp [aliasRowForm, aliasTail]
  | cons t2 ts2 ih =>
    have h1 : aliasRowForm (t :: t2 :: ts2)
        = ':' :: (aliasTokenChars t ++ [':']) ++ aliasRowForm (t2 :: ts2) := by
      simp [aliasRowForm]
    rw [h1, ih t2]
    simp [aliasTail]

theorem filter_colon_name (name : List Char) (hnc : ∀ c ∈ name, c ≠ ':') :
    name.filter (fun c => c ≠ ':') = name := by
  apply List.filter_eq_self.mpr
  intro c hc
  simpa using hnc c hc

theorem filter_colon_name_trail (name : List Char) (hnc : ∀ c ∈ name, c ≠ ':') :
    (name ++ [':']).filter (fun c => c ≠ ':') = name := by
  rw [List.filter_append, filter_colon_name name hnc]
  simp

theorem parseAliasRow_tokens :
    ∀ ts : List Tile, ts ≠ [] → parseAliasRow (splitColons (aliasTail ts)) = some ts := by
  intro ts
  induction ts with
  | nil => intro h; exact absurd rfl h
  | cons t rest ih =>
    intro _
    cases rest with
    | nil =>
      have hsplit : splitColons (aliasTail [t]) = [aliasTokenChars t ++ [':']] := by
        simp only [aliasTail]
        exact splitColons_name_trail (aliasTokenChars t) (aliasTokenChars_no_colon t)
      rw [hsplit]
      simp only [parseAliasRow,
        filter_colon_name_trail (aliasTokenChars t) (aliasTokenChars_no_colon t),
        tileFromToken_aliasTokenChars t]
    | cons t2 rest2 =>
      have hsplit : splitColons (aliasTail (t :: t2 :: rest2))
          = aliasTokenChars t :: splitColons (aliasTail (t2 :: rest2)) := by
        simp only [aliasTail]
        exact splitColons_name_sep (aliasTokenChars t) (aliasTokenChars_no_colon t) _
      rw [hsplit]
      simp only [parseAliasRow,
        filter_colon_name (aliasTokenChars t) (aliasTokenChars_no_colon t),
        tileFromToken_aliasTokenChars t, ih (by simp)]

theorem containsColonColon_append_sep :
    ∀ (a b : List Char), containsColonColon (a ++ ':' :: ':' :: b) = true := by
  intro a b
  induction a with
  | nil => simp [containsColonColon]
  | cons c a2 ih =>
    rw [List.cons_append, containsColonColon_step c (a2 ++ ':' :: ':' :: b) (by simp)]
    split
    · rfl
    · exact ih

/-- Claim C8 (amended): for every row of at least two tiles, the
alias-delimited form and the raw Unicode-square form tokenize to exactly
the same row of tiles: both parse to `some ts`. (A one-tile row is the
forced exception: its alias form `":name:"` contains no `"::"`, so the
raw-glyph strategy is chosen and it fails, see the counterexample.) -/
theorem c8_alias_raw_equivalent (ts : List Tile) (h2 : 2 ≤ ts.length) :
    rowParse (aliasRowForm ts) = some ts ∧ rowParse (rawRowForm ts) = some ts := by
  constructor
  · match ts, h2 with
    | t1 :: t2 :: rest, _ =>
      have htail : aliasTail (t1 :: t2 :: rest)
          = aliasTokenChars t1 ++ ':' :: ':' :: aliasTail (t2 :: rest) := by
        simp [aliasTail]
      have hform := aliasRowForm_eq_tail t1 (t2 :: rest)
      have hcontains : containsColonColon (aliasRowForm (t1 :: t2 :: rest)) = true := by
        rw [hform, htail, ← List.cons_append]
        exact containsColonColon_append_sep (':' :: aliasTokenChars t1) _
      have hhead : (aliasTokenChars t1 ++ ':' :: ':' :: aliasTail (t2 :: rest)).head? ≠ some ':' := by
        cases h : aliasTokenChars t1 with
        | nil => exact absurd h (aliasTokenChars_ne_nil t1)
        | cons x xs =>
          have := aliasTokenChars_head t1
          rw [h] at this
          simpa using this
      have hsplit : splitColons (':' :: (aliasTokenChars t1 ++ ':' :: ':' :: aliasTail (t2 :: rest)))
          = (':' :: aliasTokenChars t1) :: splitColons (aliasTail (t2 :: rest)) := by
        rw [splitColons_step ':' _ (by simp) (fun hcon => hhead hcon.2)]
        rw [splitColons_name_sep (aliasTokenChars t1) (aliasTokenChars_no_colon t1) _]
        rfl
      rw [rowParse, if_pos hcontains, hform, htail, hsplit]
      have hfilter : (':' :: aliasTokenChars t1).filter (fun c => c ≠ ':')
          = aliasTokenChars t1 := by
        have h1 : (':' :: aliasTokenChars t1).filter (fun c => c ≠ ':')
            = (aliasTokenChars t1).filter (fun c => c ≠ ':') := by
          simp [List.filter_cons]
        rw [h1, filter_colon_name _ (aliasTokenChars_no_colon t1)]
      simp only [parseAliasRow, hfilter, tileFromToken_aliasTokenChars t1,
        parseAliasRow_tokens (t2 :: rest) (by simp)]
  · exact rowParse_rawRowForm ts

/-- Witness for C8 at the two-tile row green-yellow. -/
theorem c8_alias_raw_equivalent_witness :
    rowParse (aliasRowForm [Tile.Green, Tile.Yellow]) = some [Tile.Green, Tile.Yellow]
      ∧ rowParse (rawRowForm [Tile.Green, Tile.Yellow]) = some [Tile.Green, Tile.Yellow] :=
  c8_alias_raw_equivalent [Tile.Green, Tile.Yellow] (by decide)

/-! ### Ranking (claim C9) -/

theorem mem_insertByAttempts {r x : SubmissionRow} :
    ∀ l : List SubmissionRow, x ∈ insertByAttempts r l ↔ x = r ∨ x ∈ l := by
  intro l
  induction l with
  | nil => simp [insertByAttempts]
  | cons s rest ih =>
    simp only [insertByAttempts]
    split
    · simp [or_comm, or_assoc, or_left_comm]
    · simp only [List.mem_cons, ih]
      tauto

theorem countP_insertByAttempts (p : SubmissionRow → Bool) (r : SubmissionRow) :
    ∀ l : List SubmissionRow,
      (insertByAttempts r l).countP p = l.countP p + if p r then 1 else 0 := by
  intro l
  induction l with
  | nil => simp [insertByAttempts, List.countP_cons]
  | cons s rest ih =>
    simp only [insertByAttempts]
    split
    · simp only [List.countP_cons]
    · simp only [List.countP_cons, ih]
      omega

theorem countP_sortByAttempts (p : SubmissionRow → Bool) :
    ∀ rows : List SubmissionRow, (sortByAttempts rows).countP p = rows.countP p := by
  intro rows
  induction rows with
  | nil => rfl
  | cons r rest ih =>
    simp only [sortByAttempts, List.foldr_cons] at *
    rw [countP_insertByAttempts, ih, List.countP_cons]

theorem pairwise_insertByAttempts {r : SubmissionRow} :
    ∀ l : List SubmissionRow,
      l.Pairwise (fun a b => a.attempts ≤ b.attempts) →
      (insertByAttempts r l).Pairwise (fun a b => a.attempts ≤ b.attempts) := by
  intro l
  induction l with
  | nil => intro _; simp [insertByAttempts]
  | cons s rest ih =>
    intro h
    rw [List.pairwise_cons] at h
    obtain ⟨hs, hrest⟩ := h
    simp only [insertByAttempts]
    split
    · rename_i hlt
      rw [List.pairwise_cons]
      constructor
      · intro x hx
        rcases List.mem_cons.mp hx with hx | hx
        · subst hx
          omega
        · have := hs x hx
          omega
      · rw [List.pairwise_cons]
        exact ⟨hs, hrest⟩
    · rename_i hge
      rw [List.pairwise_cons]
      constructor
      · intro x hx
        rcases (mem_insertByAttempts rest).mp hx with hx | hx
        · subst hx
          omega
        · exact hs x hx
      · exact ih hrest

theorem pairwise_sortByAttempts (rows : List SubmissionRow) :
    (sortByAttempts rows).Pairwise (fun a b => a.attempts ≤ b.attempts) := by
  induction rows with
  | nil => simp [sortByAttempts]
  | cons r rest ih =>
    simp only [sortByAttempts, List.foldr_cons] at *
    exact pairwise_insertByAttempts _ ih

theorem firstIdxWith_sorted (a : Int) :
    ∀ l : List SubmissionRow,
      l.Pairwise (fun x y => x.attempts ≤ y.attempts) →
      (∃ x ∈ l, x.attempts = a) →
      firstIdxWith a l = l.countP (fun s => s.attempts < a) := by
  intro l
  induction l with
  | nil => intro _ h; simp at h
  | cons s rest ih =>
    intro hp hex
    rw [List.pairwise_cons] at hp
    obtain ⟨hs, hrest⟩ := hp
    by_cases hsa : s.attempts = a
    · simp only [firstIdxWith, if_pos hsa, List.countP_cons]
      have h0 : rest.countP (fun x => x.attempts < a) = 0 := by
        rw [List.countP_eq_zero]
        intro x hx
        have := hs x hx
        simp only [decide_eq_true_eq]
        omega
      simp only [h0, decide_eq_true_eq]
      rw [if_neg (by omega)]
    · simp only [firstIdxWith, if_neg hsa, List.countP_cons]
      obtain ⟨x, hx, hxa⟩ := hex
      rcases List.mem_cons.mp hx with hx | hx
      · subst hx
        exact absurd hxa hsa
      · have hxr := hs x hx
        have hslt : s.attempts < a := by omega
        rw [ih hrest ⟨x, hx, hxa⟩]
        simp only [decide_eq_true_eq]
        rw [if_pos (by omega)]
        omega

theorem rankIn_eq_one_add_count (rows : List SubmissionRow) (r : SubmissionRow)
    (hr : r ∈ rows) :
    rankIn rows r = 1 + rows.countP (fun s => s.attempts < r.attempts) := by
  have hex : ∃ x ∈ sortByAttempts rows, x.attempts = r.attempts := by
    have hpos : 0 < rows.countP (fun s => s.attempts = r.attempts) :=
      List.countP_pos_iff.mpr ⟨r, hr, by simp⟩
    rw [← countP_sortByAttempts] at hpos
    obtain ⟨x, hx, hxa⟩ := List.countP_pos_iff.mp hpos
    exact ⟨x, hx, by simpa using hxa⟩
  rw [rankIn, firstIdxWith_sorted r.attempts (sortByAttempts rows)
    (pairwise_sortByAttempts rows) hex, countP_sortByAttempts]
  omega

/-- Claim C9: standard competition ("1224") ranking over ascending
attempts. Tied entries share a rank; each entry's rank is one more than
the number of strictly better entries; attempts `[2,2,4,6]` yield ranks
`[1,1,3,4]`; and the winners query returns exactly the rank-1 entries
ordered by ascending submission time. -/
theorem c9_competition_ranking :
    (∀ (rows : List SubmissionRow) (r s : SubmissionRow), r ∈ rows → s ∈ rows →
        r.attempts = s.attempts → rankIn rows r = rankIn rows s)
      ∧ (∀ (rows : List SubmissionRow) (r : SubmissionRow), r ∈ rows →
          rankIn rows r = 1 + (rows.filter (fun s => s.attempts < r.attempts)).length)
      ∧ exampleRows.map (rankIn exampleRows) = [1, 1, 3, 4]
      ∧ findWinners exampleRows 5 = [rowB, rowA] := by
  refine ⟨?_, ?_, by decide, by decide⟩
  · intro rows r s _ _ h
    simp [rankIn, h]
  · intro rows r hr
    rw [rankIn_eq_one_add_count rows r hr, List.countP_eq_length_filter]

/-- Witness for C9 at the example rows: the attempts-4 entry has rank 3. -/
theorem c9_competition_ranking_witness :
    rankIn exampleRows rowC
      = 1 + (exampleRows.filter (fun s => s.attempts < rowC.attempts)).length :=
  c9_competition_ranking.2.1 exampleRows rowC (by decide)

/-! ### Daily puzzle cache (claims C3 and C5) -/

/-- Claim C5: when the metadata fetch fails on both attempts (exactly two
outcomes are consumed from the stream, the third entry is untouched), a
forced get with no prior cached value returns the synthesized
`from_calculated` puzzle (day offset = whole days since the launch date,
empty solution) and caches it; with a prior cached value it returns that
stale value unchanged. -/
theorem c5_exhausted_retries_fallback (today : Int) (f : Nat)
    (rest : List (Option CurrentPuzzle)) :
    (∀ old : CurrentPuzzle,
        getCurrentPuzzle (f + 1) today true (some old) (none :: none :: rest)
          = some (old, some old, rest))
      ∧ getCurrentPuzzle (f + 1) today true none (none :: none :: rest)
          = some (fromCalculated today, some (fromCalculated today), rest)
      ∧ (fromCalculated today).days_since_launch = today - wordleLaunchDay
      ∧ (fromCalculated today).solution = "" := by
  refine ⟨?_, ?_, rfl, rfl⟩
  · intro old
    simp [getCurrentPuzzle, getInner]
  · simp [getCurrentPuzzle, getInner]

/-- Claim C3: the code stores the cache in a `OnceLock` and discards the
`Err` of the second `set` (src/lib.rs line 142), so a forced get with a
successful fetch does NOT replace an existing cached value: the old value
is returned and the new one is dropped. Worse, when the cached value is
stale the final freshness check recurses forever as long as fetches keep
succeeding, since the recursion can never overwrite the stale cell: with
`f` successful fetch outcomes available, `f` fuel is always exhausted. -/
theorem c3_refresh_never_replaces :
    (getCurrentPuzzle 5 100 true (some cachedOld) [some fetchedNew]
        = some (cachedOld, some cachedOld, [])
      ∧ cachedOld ≠ fetchedNew)
      ∧ ∀ (f : Nat) (s : List (Option CurrentPuzzle)),
          (∀ o ∈ s, o.isSome = true) → f ≤ s.length →
          getCurrentPuzzle f 100 true (some staleOld) s = none := by
  refine ⟨⟨by decide, by decide⟩, ?_⟩
  intro f
  induction f with
  | zero => intro s _ _; rfl
  | succ f2 ih =>
    intro s hsome hlen
    cases s with
    | nil => simp at hlen
    | cons a s2 =>
      obtain ⟨p, rfl⟩ := Option.isSome_iff_exists.mp (hsome a (by simp))
      have hrec := ih s2 (fun o ho => hsome o (by simp [ho])) (by simpa using hlen)
      simp only [getCurrentPuzzle, getInner, onceSet]
      have hstale : staleOld.print_date ≠ (100 : Int) := by decide
      simp [hstale, hrec]

/-- Witness for C3: one successful fetch outcome, fuel 1, stale cache:
the get does not terminate within the fuel. -/
theorem c3_refresh_never_replaces_witness :
    getCurrentPuzzle 1 100 true (some staleOld) [some fetchedNew] = none :=
  c3_refresh_never_replaces.2 1 [some fetchedNew] (by decide) (by decide)

/-! ### Header regex machinery (claims C1, C2, C10) -/

theorem natToChars_small {n : Nat} (h : n < 10) : natToChars n = [Nat.digitChar n] := by
  simp [natToChars, natToCharsFuel, h]

theorem matchAfterWordle_of_shape (d1 d2 : List Char) (a : Char) (rest : List Char)
    (h1 : d1 ≠ []) (h2 : d2 ≠ []) (hd1 : ∀ c ∈ d1, c.isDigit = true)
    (hd2 : ∀ c ∈ d2, c.isDigit = true) (ha : a.isDigit = true ∨ a = 'X') :
    matchAfterWordle (d1 ++ ',' :: (d2 ++ ' ' :: a :: '/' :: '6' :: rest))
      = some ⟨d1 ++ ',' :: d2, a, decide (rest.head? = some '*')⟩ := by
  have hcomma : Char.isDigit ',' = false := by decide
  have hspace : Char.isDigit ' ' = false := by decide
  have htake1 : (d1 ++ ',' :: (d2 ++ ' ' :: a :: '/' :: '6' :: rest)).takeWhile Char.isDigit = d1 :=
    takeWhile_all_append d1 ',' (d2 ++ ' ' :: a :: '/' :: '6' :: rest) hd1 hcomma
  have hdrop1 : (d1 ++ ',' :: (d2 ++ ' ' :: a :: '/' :: '6' :: rest)).dropWhile Char.isDigit
      = ',' :: (d2 ++ ' ' :: a :: '/' :: '6' :: rest) :=
    dropWhile_all_append d1 ',' (d2 ++ ' ' :: a :: '/' :: '6' :: rest) hd1 hcomma
  have htake2 : (d2 ++ ' ' :: a :: '/' :: '6' :: rest).takeWhile Char.isDigit = d2 :=
    takeWhile_all_append d2 ' ' (a :: '/' :: '6' :: rest) hd2 hspace
  have hdrop2 : (d2 ++ ' ' :: a :: '/' :: '6' :: rest).dropWhile Char.isDigit
      = ' ' :: a :: '/' :: '6' :: rest :=
    dropWhile_all_append d2 ' ' (a :: '/' :: '6' :: rest) hd2 hspace
  simp only [matchAfterWordle]
  rw [htake1, hdrop1, if_neg h1]
  dsimp only
  rw [if_pos rfl, htake2, hdrop2, if_neg h2]
  dsimp only
  rw [if_pos (⟨rfl, rfl, rfl⟩ : (' ' : Char) = ' ' ∧ ('/' : Char) = '/' ∧ ('6' : Char) = '6')]
  rw [if_pos (by simpa using ha)]

theorem matchAt_wordle (tail : List Char) :
    matchAt (("Wordle ").data ++ tail) = matchAfterWordle tail := by
  have h7 : (("Wordle ").data).length = 7 := by decide
  have htake : (("Wordle ").data ++ tail).take 7 = ("Wordle ").data := by
    rw [← h7, List.take_left]
  have hdrop : (("Wordle ").data ++ tail).drop 7 = tail := by
    rw [← h7, List.drop_left]
  simp [matchAt, dropWordle, htake, hdrop]

theorem findHeader_of_matchAt {l : List Char} {caps : HeaderCaps}
    (h : matchAt l = some caps) : findHeader l = some caps := by
  cases l with
  | nil =>
    have : matchAt ([] : List Char) = none := by decide
    rw [this] at h
    exact absurd h (by simp)
  | cons c rest => simp only [findHeader, h]

theorem matchAt_cons_ne_W {c : Char} (rest : List Char) (hc : c ≠ 'W') :
    matchAt (c :: rest) = none := by
  have : (c :: rest).take 7 ≠ ("Wordle ").data := by
    intro hcon
    have h7 : ("Wordle ").data = 'W' :: ("ordle ").data := by decide
    have hred : (c :: rest).take 7 = c :: rest.take 6 := rfl
    rw [hred, h7] at hcon
    exact hc (by injection hcon)
  simp only [matchAt, dropWordle, if_neg this]

theorem findHeader_append_no_W (pre rest : List Char) (hpre : ∀ c ∈ pre, c ≠ 'W') :
    findHeader (pre ++ rest) = findHeader rest := by
  induction pre with
  | nil => simp
  | cons c p2 ih =>
    have hc : c ≠ 'W' := hpre c (by simp)
    rw [List.cons_append, findHeader, matchAt_cons_ne_W _ hc]
    exact ih (fun x hx => hpre x (by simp [hx]))

theorem getLast?_ne_of_all_ne {l : List Char} {x : Char} (h : ∀ c ∈ l, c ≠ x) :
    l.getLast? ≠ some x := by
  cases hl : l.getLast? with
  | none => simp
  | some c =>
    have hc : c ∈ l := List.mem_of_mem_getLast? hl
    simpa using h c hc

theorem getLast?_ne_nil_of_all {l : List (List Char)} (h : ∀ r ∈ l, r ≠ []) :
    l.getLast? ≠ some [] := by
  cases hl : l.getLast? with
  | none => simp
  | some r =>
    have hr : r ∈ l := List.mem_of_mem_getLast? hl
    simpa using h r hr

theorem rawRowForm_ne_nil {r : List Tile} (h : r ≠ []) : rawRowForm r ≠ [] := by
  cases r with
  | nil => exact absurd rfl h
  | cons t rest =>
    obtain ⟨c, hc⟩ := tileToChars_single t
    have : rawRowForm (t :: rest) = tileToChars t ++ rawRowForm rest := by
      simp [rawRowForm]
    rw [this, hc]
    simp

theorem collectRows_rawRows :
    ∀ (tss : List (List Tile)) (acc : List (List Tile)),
      acc.length + tss.length ≤ 6 →
      (∀ r ∈ tss, r ≠ [] ∧ r.length ≤ 5) →
      collectRows (tss.map rawRowForm) acc = some (acc.reverse ++ tss) := by
  intro tss
  induction tss with
  | nil => intro acc _ _; simp [collectRows]
  | cons r rest ih =>
    intro acc hlen hrows
    obtain ⟨hrne, hr5⟩ := hrows r (by simp)
    have hacc : ¬ (acc.length = 6) := by
      simp only [List.length_cons] at hlen
      omega
    simp only [List.map_cons, collectRows, if_neg hacc,
      if_neg (rawRowForm_ne_nil hrne), rowParse_rawRowForm r,
      if_neg (by omega : ¬ r.length > 5)]
    rw [ih (r :: acc) (by simp only [List.length_cons] at *; omega)
      (fun x hx => hrows x (by simp [hx]))]
    simp

theorem matchAt_some_shape {cs : List Char} {caps : HeaderCaps}
    (h : matchAt cs = some caps) :
    ∃ d1 d2 a rest,
      cs = ("Wordle ").data ++ (d1 ++ ',' :: (d2 ++ ' ' :: a :: '/' :: '6' :: rest))
        ∧ d1 ≠ [] ∧ d2 ≠ [] ∧ (∀ c ∈ d1, c.isDigit = true) ∧ (∀ c ∈ d2, c.isDigit = true)
        ∧ (a.isDigit = true ∨ a = 'X') := by
  rw [matchAt] at h
  cases hdw : dropWordle cs with
  | none => rw [hdw] at h; exact absurd h (by simp)
  | some tail =>
    rw [hdw] at h
    rw [dropWordle] at hdw
    by_cases htk : cs.take 7 = ("Wordle ").data
    case neg => rw [if_neg htk] at hdw; exact absurd hdw (by simp)
    rw [if_pos htk] at hdw
    have htail : tail = cs.drop 7 := by
      injection hdw with h2
      exact h2.symm
    have hcs : cs = ("Wordle ").data ++ tail := by
      rw [htail, ← htk]
      exact (List.take_append_drop 7 cs).symm
    simp only [matchAfterWordle] at h
    by_cases h1 : tail.takeWhile Char.isDigit = []
    · rw [if_pos h1] at h; exact absurd h (by simp)
    rw [if_neg h1] at h
    cases hr1 : tail.dropWhile Char.isDigit with
    | nil => rw [hr1] at h; exact absurd h (by simp)
    | cons c1 r2 =>
      rw [hr1] at h
      dsimp only at h
      by_cases hc1 : c1 = ','
      case neg => rw [if_neg hc1] at h; exact absurd h (by simp)
      rw [if_pos hc1] at h
      by_cases h2 : r2.takeWhile Char.isDigit = []
      · rw [if_pos h2] at h; exact absurd h (by simp)
      rw [if_neg h2] at h
      cases hr3 : r2.dropWhile Char.isDigit with
      | nil => rw [hr3] at h; exact absurd h (by simp)
      | cons c2 rr1 =>
        cases rr1 with
        | nil => rw [hr3] at h; exact absurd h (by simp)
        | cons a rr2 =>
          cases rr2 with
          | nil => rw [hr3] at h; exact absurd h (by simp)
          | cons c3 rr3 =>
            cases rr3 with
            | nil => rw [hr3] at h; exact absurd h (by simp)
            | cons c4 rest =>
              rw [hr3] at h
              dsimp only at h
              by_cases hlits : c2 = ' ' ∧ c3 = '/' ∧ c4 = '6'
              case neg => rw [if_neg hlits] at h; exact absurd h (by simp)
              rw [if_pos hlits] at h
              by_cases ha : a.isDigit = true ∨ a = 'X'
              case neg =>
                rw [if_neg (by simpa using ha)] at h
                exact absurd h (by simp)
              obtain ⟨hsp, hsl, hsix⟩ := hlits
              refine ⟨tail.takeWhile Char.isDigit, r2.takeWhile Char.isDigit, a, rest,
                ?_, h1, h2, ?_, ?_, ha⟩
              · rw [hcs]
                congr 1
                calc tail = tail.takeWhile Char.isDigit ++ tail.dropWhile Char.isDigit :=
                      (List.takeWhile_append_dropWhile _ _).symm
                _ = tail.takeWhile Char.isDigit ++ ',' :: r2 := by rw [hr1, hc1]
                _ = _ := by
                      congr 2
                      calc r2 = r2.takeWhile Char.isDigit ++ r2.dropWhile Char.isDigit :=
                            (List.takeWhile_append_dropWhile _ _).symm
                      _ = _ := by rw [hr3, hsp, hsl, hsix]
              · intro c hc
                exact List.mem_takeWhile_imp hc
              · intro c hc
                exact List.mem_takeWhile_imp hc

theorem findHeader_isSome_append (pre rest : List Char) :
    (findHeader rest).isSome = true → (findHeader (pre ++ rest)).isSome = true := by
  induction pre with
  | nil => simp
  | cons c p2 ih =>
    intro h
    rw [List.cons_append, findHeader]
    cases hm : matchAt (c :: (p2 ++ rest)) with
    | some caps => simp
    | none =>
      dsimp only
      exact ih h

theorem findHeader_isSome_shape :
    ∀ line : List Char, (findHeader line).isSome = true → HeaderShape line := by
  intro line
  induction line with
  | nil => intro h; rw [findHeader] at h; exact absurd h (by simp)
  | cons c rest ih =>
    intro h
    rw [findHeader] at h
    cases hm : matchAt (c :: rest) with
    | some caps =>
      obtain ⟨d1, d2, a, r, heq, hn1, hn2, hd1, hd2, ha⟩ := matchAt_some_shape hm
      exact ⟨[], d1, d2, a, r, by simp [heq, List.append_assoc], hn1, hn2, hd1, hd2, ha⟩
    | none =>
      rw [hm] at h
      dsimp only at h
      obtain ⟨pre, d1, d2, a, r, heq, hn1, hn2, hd1, hd2, ha⟩ := ih h
      exact ⟨c :: pre, d1, d2, a, r, by simp [heq, List.append_assoc], hn1, hn2, hd1, hd2, ha⟩

theorem findHeader_isSome_of_shape {line : List Char} (h : HeaderShape line) :
    (findHeader line).isSome = true := by
  obtain ⟨pre, d1, d2, a, r, heq, hn1, hn2, hd1, hd2, ha⟩ := h
  have hmatch : matchAt (("Wordle ").data ++ (d1 ++ ',' :: (d2 ++ ' ' :: a :: '/' :: '6' :: r)))
      = some ⟨d1 ++ ',' :: d2, a, decide (r.head? = some '*')⟩ := by
    rw [matchAt_wordle]
    exact matchAfterWordle_of_shape d1 d2 a r hn1 hn2 hd1 hd2 ha
  have hfind := findHeader_of_matchAt hmatch
  have hsome : (findHeader (("Wordle ").data
      ++ (d1 ++ ',' :: (d2 ++ ' ' :: a :: '/' :: '6' :: r)))).isSome = true := by
    rw [hfind]
    rfl
  have := findHeader_isSome_append pre _ hsome
  rw [heq]
  simpa [List.append_assoc] using this

/-- Claim C2 (amended): the header stage accepts a first line exactly when
it contains, anywhere within it, a substring of the form `"Wordle "`, a
non-empty digit run, a comma, a non-empty digit run, a space, a single
digit (any of 0-9) or `X`, and `"/6"`; the optional `*` constrains nothing.
In particular a comma is always required (plain `"Wordle 123 4/6"` is
rejected) and the attempts digit is not restricted to 1-6. When the header
stage fails, `Puzzle::try_from` returns the error without parsing a board.
(The original claim's grammar — comma grouping optional below 1000,
attempts digit restricted to 1-6, anchored match — is refuted by the
counterexample.) -/
theorem c2_header_acceptance :
    (∀ line : List Char, (findHeader line).isSome = true ↔ HeaderShape line)
      ∧ (∀ cs : List Char, findHeader ((rustLines cs).headD []) = none →
          puzzleTryFrom cs = ParseOutcome.err)
      ∧ findHeader (("Wordle 123 4/6").data) = none := by
  refine ⟨?_, ?_, by decide⟩
  · intro line
    exact ⟨findHeader_isSome_shape line, findHeader_isSome_of_shape⟩
  · intro cs h
    simp only [puzzleTryFrom, h]

/-- Witness for C2: an explicit decomposition of a junk-wrapped header line
makes the parser accept it. -/
theorem c2_header_acceptance_witness :
    (findHeader (("x Wordle 1,234 9/6 y").data)).isSome = true :=
  (c2_header_acceptance.1 (("x Wordle 1,234 9/6 y").data)).mpr
    ⟨("x ").data, ['1'], ['2', '3', '4'], '9', (" y").data,
      by decide, by decide, by decide, by decide, by decide, by decide⟩

theorem boardTryFrom_encoded (tss : List (List Tile))
    (h1 : 1 ≤ tss.length) (h6 : tss.length ≤ 6)
    (hrow : ∀ r ∈ tss, 1 ≤ r.length ∧ r.length ≤ 5)
    (hsingle : tss.length = 1 → ∀ t ∈ tss.headD [], t = Tile.Green) :
    boardTryFrom ('\n' :: joinSep ['\n'] (tss.map rawRowForm)) = some tss := by
  have hrows_ne : ∀ s ∈ tss.map rawRowForm, s ≠ [] := by
    intro s hs
    obtain ⟨r, hr, rfl⟩ := List.mem_map.mp hs
    exact rawRowForm_ne_nil (by
      have := (hrow r hr).1
      intro hcon
      simp [hcon] at this)
  have hrows_nl : ∀ s ∈ tss.map rawRowForm, '\n' ∉ s := by
    intro s hs hmem
    obtain ⟨r, hr, rfl⟩ := List.mem_map.mp hs
    obtain ⟨t, _, hct⟩ := rawRowForm_mem hmem
    exact tile_char_no_nl t '\n' hct rfl
  have hrows_cr : ∀ s ∈ tss.map rawRowForm, s.getLast? ≠ some '\r' := by
    intro s hs
    apply getLast?_ne_of_all_ne
    intro c hc
    obtain ⟨r, hr, rfl⟩ := List.mem_map.mp hs
    obtain ⟨t, _, hct⟩ := rawRowForm_mem hc
    exact tile_char_no_cr t c hct
  have hmapne : tss.map rawRowForm ≠ [] := by
    cases tss with
    | nil => simp at h1
    | cons a b => simp
  have hsplit : splitNl ('\n' :: joinSep ['\n'] (tss.map rawRowForm))
      = [] :: tss.map rawRowForm := by
    have : splitNl (joinSep ['\n'] (tss.map rawRowForm)) = tss.map rawRowForm :=
      splitNl_joinSep _ hmapne hrows_nl
    simp [splitNl, this]
  have hlines : rustLines ('\n' :: joinSep ['\n'] (tss.map rawRowForm))
      = [] :: tss.map rawRowForm := by
    rw [rustLines]
    simp only [hsplit]
    have hlast : (([] : List Char) :: tss.map rawRowForm).getLast? ≠ some [] := by
      cases hm : tss.map rawRowForm with
      | nil => exact absurd hm hmapne
      | cons s ss =>
        rw [List.getLast?_cons_cons]
        rw [← hm]
        exact getLast?_ne_nil_of_all hrows_ne
    rw [if_neg hlast]
    have : ∀ s ∈ ([] : List Char) :: tss.map rawRowForm, stripCr s = s := by
      intro s hs
      rcases List.mem_cons.mp hs with hs | hs
      · subst hs; rfl
      · simp [stripCr, hrows_cr s hs]
    calc (([] : List Char) :: tss.map rawRowForm).map stripCr
        = (([] : List Char) :: tss.map rawRowForm).map id := List.map_congr_left (by simpa using this)
    _ = _ := List.map_id _
  have hcollect : collectRows ([] :: tss.map rawRowForm) [] = some tss := by
    have h0 : collectRows ([] :: tss.map rawRowForm) []
        = collectRows (tss.map rawRowForm) [] := by
      simp [collectRows]
    rw [h0, collectRows_rawRows tss [] (by simpa using h6) (by
      intro r hr
      obtain ⟨ha, hb⟩ := hrow r hr
      exact ⟨by intro hcon; simp [hcon] at ha, hb⟩)]
    simp
  rw [boardTryFrom, hlines, hcollect]
  cases tss with
  | nil => simp at h1
  | cons row rest =>
    cases rest with
    | nil =>
      have hg : row.all (fun t => t = Tile.Green) = true := by
        apply List.all_eq_true.mpr
        intro t ht
        have := hsingle (by simp) t (by simpa using ht)
        simpa using this
      simp [hg]
    | cons row2 rest2 => rfl

theorem mem_joinSep {c : Char} (sep : List Char) :
    ∀ l : List (List Char), c ∈ joinSep sep l → (∃ x ∈ l, c ∈ x) ∨ c ∈ sep := by
  intro l
  induction l with
  | nil => intro h; simp [joinSep] at h
  | cons x xs ih =>
    cases xs with
    | nil =>
      intro h
      exact Or.inl ⟨x, by simp, by simpa [joinSep] using h⟩
    | cons y ys =>
      intro h
      have hj : joinSep sep (x :: y :: ys) = x ++ sep ++ joinSep sep (y :: ys) := by
        simp [joinSep]
      rw [hj] at h
      rcases List.mem_append.mp h with h2 | h2
      · rcases List.mem_append.mp h2 with h3 | h3
        · exact Or.inl ⟨x, by simp, h3⟩
        · exact Or.inr h3
      · rcases ih h2 with ⟨z, hz, hcz⟩ | h3
        · exact Or.inl ⟨z, by simp [hz], hcz⟩
        · exact Or.inr h3

theorem mem_grouped {c : Char} {cs : List Char} (h : c ∈ grouped cs) : c ∈ cs ∨ c = ',' := by
  rcases mem_joinSep [','] (rchunks3 cs) h with ⟨x, hx, hcx⟩ | hc
  · left
    have : c ∈ (rchunks3 cs).flatten := List.mem_flatten.mpr ⟨x, hx, hcx⟩
    rwa [rchunks3_flatten] at this
  · right
    simpa using hc

/-- The core of `Puzzle::try_from` on a structured input: arbitrary junk
(`pre`, no `W` and no line breaks) before the header pattern, a properly
comma-grouped day offset `n` with exactly one comma (1000-999999), an
attempts character that is a digit or `X`, the optional hard-mode star,
arbitrary trailing junk `post` on the first line (not starting with `*`
when the star is absent), a blank line, then an encoded board. Parsing
succeeds with exactly the embedded fields. -/
theorem puzzleTryFrom_master
    (pre post : List Char) (n : Nat) (a : Char) (hard : Bool) (tss : List (List Tile))
    (hpre : ∀ c ∈ pre, c ≠ 'W' ∧ c ≠ '\n' ∧ c ≠ '\r')
    (hpost : ∀ c ∈ post, c ≠ '\n' ∧ c ≠ '\r')
    (hpostStar : hard = false → post.head? ≠ some '*')
    (hn : 1000 ≤ n) (hn6 : n ≤ 999999)
    (ha : a.isDigit = true ∨ a = 'X')
    (h1 : 1 ≤ tss.length) (h6 : tss.length ≤ 6)
    (hrow : ∀ r ∈ tss, 1 ≤ r.length ∧ r.length ≤ 5)
    (hsingle : tss.length = 1 → ∀ t ∈ tss.headD [], t = Tile.Green) :
    puzzleTryFrom (pre ++ (("Wordle ").data ++ (grouped (natToChars n)
        ++ ' ' :: a :: '/' :: '6' :: ((if hard then ['*'] else [])
          ++ (post ++ '\n' :: '\n' :: joinSep ['\n'] (tss.map rawRowForm))))))
      = ParseOutcome.ok ⟨(n : Int),
          if a.isDigit then ((a.toNat - 48 : Nat) : Int) else 6,
          decide (a ≠ 'X'), hard, tss⟩ := by
  have hadig : ∀ c : Char, c.isDigit = true ∨ c = 'X' → c ≠ '\n' ∧ c ≠ '\r' := by
    intro c hc
    rcases hc with hc | hc
    · exact ⟨isDigit_ne_nl hc, isDigit_ne_cr hc⟩
    · subst hc
      exact ⟨by decide, by decide⟩
  have hdig := natToChars_isDigit n
  have hlen4 : 4 ≤ (natToChars n).length := by
    have := natToChars_length_ge (n := n) (k := 3) (by norm_num; omega)
    omega
  have hlen6 : (natToChars n).length ≤ 6 :=
    natToChars_length_le (by norm_num; omega) (by omega)
  have hgr : grouped (natToChars n)
      = (natToChars n).take ((natToChars n).length - 3)
        ++ ',' :: (natToChars n).drop ((natToChars n).length - 3) :=
    grouped_two_chunks (natToChars n) hlen4 hlen6
  have hd1ne : (natToChars n).take ((natToChars n).length - 3) ≠ [] := by
    intro hcon
    have := congrArg List.length hcon
    rw [List.length_take] at this
    simp at this
    omega
  have hd2ne : (natToChars n).drop ((natToChars n).length - 3) ≠ [] := by
    intro hcon
    have := congrArg List.length hcon
    rw [List.length_drop] at this
    simp at this
    omega
  have hd1dig : ∀ c ∈ (natToChars n).take ((natToChars n).length - 3), c.isDigit = true :=
    fun c hc => hdig c (List.take_subset _ _ hc)
  have hd2dig : ∀ c ∈ (natToChars n).drop ((natToChars n).length - 3), c.isDigit = true :=
    fun c hc => hdig c (List.drop_subset _ _ hc)
  have hgroupedChars : ∀ c ∈ grouped (natToChars n), c ≠ '\n' ∧ c ≠ '\r' := by
    intro c hc
    rcases mem_grouped hc with hc | hc
    · have := hdig c hc
      exact ⟨isDigit_ne_nl this, isDigit_ne_cr this⟩
    · subst hc
      exact ⟨by decide, by decide⟩
  have hstarChars : ∀ c ∈ (if hard then (['*'] : List Char) else []), c ≠ '\n' ∧ c ≠ '\r' := by
    cases hard <;> simp
  -- the first line
  have hF : ∀ c ∈ pre ++ (("Wordle ").data ++ (grouped (natToChars n)
      ++ ' ' :: a :: '/' :: '6' :: ((if hard then ['*'] else []) ++ post))),
      c ≠ '\n' ∧ c ≠ '\r' := by
    intro c hc
    rcases List.mem_append.mp hc with hc | hc
    · exact ⟨(hpre c hc).2.1, (hpre c hc).2.2⟩
    rcases List.mem_append.mp hc with hc | hc
    · have hw : ∀ x ∈ ("Wordle ").data, x ≠ '\n' ∧ x ≠ '\r' := by decide
      exact hw c hc
    rcases List.mem_append.mp hc with hc | hc
    · exact hgroupedChars c hc
    rcases List.mem_cons.mp hc with hc | hc
    · rw [hc]; exact ⟨by decide, by decide⟩
    rcases List.mem_cons.mp hc with hc | hc
    · rw [hc]; exact hadig a ha
    rcases List.mem_cons.mp hc with hc | hc
    · rw [hc]; exact ⟨by decide, by decide⟩
    rcases List.mem_cons.mp hc with hc | hc
    · rw [hc]; exact ⟨by decide, by decide⟩
    rcases List.mem_append.mp hc with hc | hc
    · exact hstarChars c hc
    · exact hpost c hc
  have hrows_ne : ∀ s ∈ tss.map rawRowForm, s ≠ [] := by
    intro s hs
    obtain ⟨r, hr, rfl⟩ := List.mem_map.mp hs
    exact rawRowForm_ne_nil (by
      have := (hrow r hr).1
      intro hcon
      simp [hcon] at this)
  have hrows_nl : ∀ s ∈ tss.map rawRowForm, '\n' ∉ s := by
    intro s hs hmem
    obtain ⟨r, hr, rfl⟩ := List.mem_map.mp hs
    obtain ⟨t, _, hct⟩ := rawRowForm_mem hmem
    exact tile_char_no_nl t '\n' hct rfl
  have hrows_cr : ∀ s ∈ tss.map rawRowForm, s.getLast? ≠ some '\r' := by
    intro s hs
    apply getLast?_ne_of_all_ne
    intro c hc
    obtain ⟨r, hr, rfl⟩ := List.mem_map.mp hs
    obtain ⟨t, _, hct⟩ := rawRowForm_mem hc
    exact tile_char_no_cr t c hct
  have hmapne : tss.map rawRowForm ≠ [] := by
    cases tss with
    | nil => simp at h1
    | cons x y => simp
  have heqInput : pre ++ (("Wordle ").data ++ (grouped (natToChars n)
      ++ ' ' :: a :: '/' :: '6' :: ((if hard then ['*'] else [])
        ++ (post ++ '\n' :: '\n' :: joinSep ['\n'] (tss.map rawRowForm)))))
      = (pre ++ (("Wordle ").data ++ (grouped (natToChars n)
          ++ ' ' :: a :: '/' :: '6' :: ((if hard then ['*'] else []) ++ post))))
        ++ '\n' :: ('\n' :: joinSep ['\n'] (tss.map rawRowForm)) := by
    simp [List.append_assoc]
  have hsplitJ : splitNl ('\n' :: joinSep ['\n'] (tss.map rawRowForm))
      = [] :: tss.map rawRowForm := by
    have := splitNl_joinSep _ hmapne hrows_nl
    simp [splitNl, this]
  have hsplit : splitNl (pre ++ (("Wordle ").data ++ (grouped (natToChars n)
      ++ ' ' :: a :: '/' :: '6' :: ((if hard then ['*'] else [])
        ++ (post ++ '\n' :: '\n' :: joinSep ['\n'] (tss.map rawRowForm))))))
      = (pre ++ (("Wordle ").data ++ (grouped (natToChars n)
          ++ ' ' :: a :: '/' :: '6' :: ((if hard then ['*'] else [])
            ++ post))))
        :: [] :: tss.map rawRowForm := by
    rw [heqInput, splitNl_append_nl _ _ (fun hmem => ((hF _ hmem).1) rfl), hsplitJ]
  have hlines : rustLines (pre ++ (("Wordle ").data ++ (grouped (natToChars n)
      ++ ' ' :: a :: '/' :: '6' :: ((if hard then ['*'] else [])
        ++ (post ++ '\n' :: '\n' :: joinSep ['\n'] (tss.map rawRowForm))))))
      = (pre ++ (("Wordle ").data ++ (grouped (natToChars n)
          ++ ' ' :: a :: '/' :: '6' :: ((if hard then ['*'] else [])
            ++ post))))
        :: [] :: tss.map rawRowForm := by
    rw [rustLines]
    simp only [hsplit]
    have hlast : ((pre ++ (("Wordle ").data ++ (grouped (natToChars n)
        ++ ' ' :: a :: '/' :: '6' :: ((if hard then ['*'] else [])
          ++ post))))
        :: ([] : List Char) :: tss.map rawRowForm).getLast? ≠ some [] := by
      rw [List.getLast?_cons_cons]
      cases hm : tss.map rawRowForm with
      | nil => exact absurd hm hmapne
      | cons s ss =>
        rw [List.getLast?_cons_cons, ← hm]
        exact getLast?_ne_nil_of_all hrows_ne
    rw [if_neg hlast]
    have hid : ∀ s ∈ (pre ++ (("Wordle ").data ++ (grouped (natToChars n)
        ++ ' ' :: a :: '/' :: '6' :: ((if hard then ['*'] else [])
          ++ post))))
        :: ([] : List Char) :: tss.map rawRowForm, stripCr s = s := by
      intro s hs
      rcases List.mem_cons.mp hs with hs | hs
      · subst hs
        rw [stripCr, if_neg (getLast?_ne_of_all_ne (fun c hc => ((hF c hc).2)))]
      rcases List.mem_cons.mp hs with hs | hs
      · subst hs; rfl
      · rw [stripCr, if_neg (hrows_cr s hs)]
    calc _ = List.map id ((pre ++ (("Wordle ").data ++ (grouped (natToChars n)
        ++ ' ' :: a :: '/' :: '6' :: ((if hard then ['*'] else [])
          ++ post))))
        :: ([] : List Char) :: tss.map rawRowForm) := List.map_congr_left (by simpa using hid)
    _ = _ := List.map_id _
  have hfind : findHeader (pre ++ (("Wordle ").data ++ (grouped (natToChars n)
      ++ ' ' :: a :: '/' :: '6' :: ((if hard then ['*'] else []) ++ post))))
      = some ⟨(natToChars n).take ((natToChars n).length - 3)
          ++ ',' :: (natToChars n).drop ((natToChars n).length - 3), a,
          decide ((((if hard then (['*'] : List Char) else []) ++ post)).head? = some '*')⟩ := by
    rw [findHeader_append_no_W pre _ (fun c hc => (hpre c hc).1)]
    have hshape : grouped (natToChars n)
        ++ ' ' :: a :: '/' :: '6' :: ((if hard then (['*'] : List Char) else []) ++ post)
        = (natToChars n).take ((natToChars n).length - 3)
          ++ ',' :: ((natToChars n).drop ((natToChars n).length - 3)
            ++ ' ' :: a :: '/' :: '6' :: ((if hard then (['*'] : List Char) else []) ++ post)) := by
      rw [hgr]
      simp [List.append_assoc]
    rw [hshape]
    apply findHeader_of_matchAt
    rw [matchAt_wordle]
    exact matchAfterWordle_of_shape _ _ a _ hd1ne hd2ne hd1dig hd2dig ha
  have hday : parseI32 (((natToChars n).take ((natToChars n).length - 3)
      ++ ',' :: (natToChars n).drop ((natToChars n).length - 3)).filter (fun c => c ≠ ','))
      = some (n : Int) := by
    rw [← hgr, filter_grouped_of_no_comma (natToChars n)
      (fun c hc => isDigit_ne_comma (hdig c hc))]
    exact parseI32_natToChars n (by omega)
  have hhard : decide ((((if hard then (['*'] : List Char) else []) ++ post)).head? = some '*')
      = hard := by
    cases hard with
    | true => simp
    | false =>
      have hcond : (if (false : Bool) then (['*'] : List Char) else []) = [] := rfl
      rw [hcond, List.nil_append]
      exact decide_eq_false (hpostStar rfl)
  have hjoin : joinSep ['\n'] (([] : List Char) :: tss.map rawRowForm)
      = '\n' :: joinSep ['\n'] (tss.map rawRowForm) := by
    cases hm : tss.map rawRowForm with
    | nil => exact absurd hm hmapne
    | cons s ss => simp [joinSep]
  have hboard : boardTryFrom (joinSep ['\n'] (([] : List Char) :: tss.map rawRowForm))
      = some tss := by
    rw [hjoin]
    exact boardTryFrom_encoded tss h1 h6 hrow hsingle
  rw [puzzleTryFrom, hlines]
  simp only [List.headD_cons, List.tail_cons, hfind, hday, hboard, hhard]

/-- Claim C1 (amended): the round-trip `parse(encode(p)) = p` holds for
every SOLVED puzzle with attempts 1-6, a trace-consistent board (row count
= attempts, five tiles per row, last row all green) and a day offset in
[1000, 999999] (so that its grouped rendering has exactly the one comma
the parser's `\d+,\d+` pattern demands). It fails for unsolved puzzles
(encoding prints the numeric attempts, losing the `X` marker, see the
counterexample) and for day offsets below 1000 or above 999999 (no comma,
or a second comma the regex cannot match). -/
theorem c1_roundtrip_solved (p : Puzzle)
    (hsolved : p.solved = true)
    (ha1 : 1 ≤ p.attempts) (ha6 : p.attempts ≤ 6)
    (hd1 : 1000 ≤ p.day_offset) (hd2 : p.day_offset ≤ 999999)
    (hrows : (p.board.length : Int) = p.attempts)
    (hrow5 : ∀ r ∈ p.board, r.length = 5)
    (hlast : ∀ t ∈ p.board.getLastD [], t = Tile.Green) :
    puzzleTryFrom (puzzleToChars p) = ParseOutcome.ok p := by
  obtain ⟨pd, pa, ps, ph, pb⟩ := p
  simp only at hsolved ha1 ha6 hd1 hd2 hrows hrow5 hlast
  subst hsolved
  have hdn : (0 : Int) ≤ pd := by omega
  have hdchars : intToChars pd = natToChars pd.toNat := by
    rw [intToChars, if_neg (by omega)]
  have hna : pa.toNat < 10 := by omega
  have hachars : intToChars pa = [Nat.digitChar pa.toNat] := by
    rw [intToChars, if_neg (by omega), natToChars_small hna]
  have hadigit : (Nat.digitChar pa.toNat).isDigit = true := digitChar_isDigit hna
  have hb : boardToChars pb = joinSep ['\n'] (pb.map rawRowForm) := rfl
  have henc : puzzleToChars ⟨pd, pa, true, ph, pb⟩
      = [] ++ (("Wordle ").data ++ (grouped (natToChars pd.toNat)
        ++ ' ' :: (Nat.digitChar pa.toNat) :: '/' :: '6' :: ((if ph then ['*'] else [])
          ++ ([] ++ '\n' :: '\n' :: joinSep ['\n'] (pb.map rawRowForm))))) := by
    simp only [puzzleToChars, hdchars, hachars, hb]
    simp [List.append_assoc]
  rw [henc]
  have hmaster := puzzleTryFrom_master [] [] pd.toNat (Nat.digitChar pa.toNat) ph pb
    (by simp) (by simp) (by intro _; simp)
    (by omega) (by omega) (Or.inl hadigit)
    (by omega) (by omega)
    (by intro r hr; have := hrow5 r hr; omega)
    (by
      intro hlen t ht
      cases pb with
      | nil => simp at hlen
      | cons r rest =>
        cases rest with
        | nil => exact hlast t (by simpa using ht)
        | cons r2 rest2 => simp at hlen)
  rw [hmaster]
  have hatt : (if (Nat.digitChar pa.toNat).isDigit
      then (((Nat.digitChar pa.toNat).toNat - 48 : Nat) : Int) else 6) = pa := by
    rw [if_pos hadigit, digitChar_toNat hna]
    omega
  have hsv : decide (Nat.digitChar pa.toNat ≠ 'X') = true := by
    simp [isDigit_ne_X hadigit]
  rw [hatt, hsv, Int.toNat_of_nonneg hdn]

/-- Witness for C1: a concrete solved hard-mode puzzle with day offset
1234 and a four-row trace round-trips. -/
theorem c1_roundtrip_solved_witness :
    puzzleTryFrom (puzzleToChars ⟨1234, 4, true, true,
        [[Tile.Green, Tile.Black, Tile.Black, Tile.Yellow, Tile.Black],
         [Tile.Black, Tile.Yellow, Tile.Black, Tile.Black, Tile.Green],
         [Tile.Green, Tile.Green, Tile.Black, Tile.Green, Tile.Green],
         [Tile.Green, Tile.Green, Tile.Green, Tile.Green, Tile.Green]]⟩)
      = ParseOutcome.ok ⟨1234, 4, true, true,
        [[Tile.Green, Tile.Black, Tile.Black, Tile.Yellow, Tile.Black],
         [Tile.Black, Tile.Yellow, Tile.Black, Tile.Black, Tile.Green],
         [Tile.Green, Tile.Green, Tile.Black, Tile.Green, Tile.Green],
         [Tile.Green, Tile.Green, Tile.Green, Tile.Green, Tile.Green]]⟩ :=
  c1_roundtrip_solved _ (by decide) (by decide) (by decide) (by decide) (by decide)
    (by decide) (by decide) (by decide)

/-- Claim C10 (amended): the header match is an unanchored substring
search: a first line carrying the pattern `"Wordle "`, comma-grouped day
offset, space, digit-or-X, `/6`, optional `*` anywhere within it parses
using those embedded fields, with arbitrary text before and after the
pattern on that line — provided the preceding text cannot start an earlier
match (no `W`), the following text does not begin with a `*` that the
optional hard-mode group would swallow when the marker is absent, and the
remaining lines form a valid board (without one, parsing fails, see the
counterexample). -/
theorem c10_unanchored_header (pre post : List Char) (n : Nat) (a : Char) (hard : Bool)
    (hpre : ∀ c ∈ pre, c ≠ 'W' ∧ c ≠ '\n' ∧ c ≠ '\r')
    (hpost : ∀ c ∈ post, c ≠ '\n' ∧ c ≠ '\r')
    (hpostStar : hard = false → post.head? ≠ some '*')
    (hn : 1000 ≤ n) (hn6 : n ≤ 999999)
    (ha : a.isDigit = true ∨ a = 'X') :
    puzzleTryFrom (pre ++ (("Wordle ").data ++ (grouped (natToChars n)
        ++ ' ' :: a :: '/' :: '6' :: ((if hard then ['*'] else [])
          ++ (post ++ '\n' :: '\n' :: joinSep ['\n']
            ([[Tile.Green, Tile.Green, Tile.Green, Tile.Green, Tile.Green]].map rawRowForm))))))
      = ParseOutcome.ok ⟨(n : Int),
          if a.isDigit then ((a.toNat - 48 : Nat) : Int) else 6,
          decide (a ≠ 'X'), hard,
          [[Tile.Green, Tile.Green, Tile.Green, Tile.Green, Tile.Green]]⟩ :=
  puzzleTryFrom_master pre post n a hard
    [[Tile.Green, Tile.Green, Tile.Green, Tile.Green, Tile.Green]]
    hpre hpost hpostStar hn hn6 ha
    (by decide) (by decide) (by decide) (by decide)

/-- Witness for C10: junk before and after the embedded pattern. -/
theorem c10_unanchored_header_witness :
    puzzleTryFrom (("zzz ").data ++ (("Wordle ").data ++ (grouped (natToChars 1234)
        ++ ' ' :: '4' :: '/' :: '6' :: ((if false then ['*'] else [])
          ++ ((" ok").data ++ '\n' :: '\n' :: joinSep ['\n']
            ([[Tile.Green, Tile.Green, Tile.Green, Tile.Green, Tile.Green]].map rawRowForm))))))
      = ParseOutcome.ok ⟨1234, 4, decide (('4' : Char) ≠ 'X'), false,
          [[Tile.Green, Tile.Green, Tile.Green, Tile.Green, Tile.Green]]⟩ :=
  c10_unanchored_header (("zzz ").data) ((" ok").data) 1234 '4' false
    (by decide) (by decide) (by intro _; decide) (by decide) (by decide) (by decide)

end HankWordle
